import Mathlib

/-!
# study-pwa: the data engine of `src/db.js` and the entry parser of `src/app.js`

A shallow embedding of the IndexedDB-backed store (`openDb` and the functions
built on it) together with the host facilities the code relies on: object
stores with a key generator and unique indexes, transactions that roll back
when a request fails, `Array.prototype.sort`, and the `Date` built-in.

Conventions of the embedding.

* Records are typed: ids, `unitId`, `subjectId` and `reviewNo` are natural
  numbers, `doneDate` is a calendar date standing for its `YYYY-MM-DD` text,
  `sortOrder` is an optional integer (the code reads it through `?? 0`).
* `createdAt` is the text of `new Date().toISOString()`; the clock reading is
  passed to each operation as the argument `now`.
* An `async` function is a function from the database to the settled promise
  (`Except` for rejected / fulfilled) paired with the database afterwards.
* A key generator hands out keys up to 2^53 and then fails, as in IndexedDB.
* A promise settled through `t.onerror = () => reject(t.error)` is rejected with
  `null`; `getOrCreateUnit` rejects with the error of its `add` request.
-/

namespace StudyPwa

/-! ## Host model: JavaScript numbers as comparators, sorting -/

/-- The JavaScript expression `x || y` on numbers: `x` unless it is zero. -/
def jsOr (x y : Int) : Int := if x = 0 then y else x

/-- Ordering induced by a comparator function: `a` may stand before `b`. -/
def cmpLe {α : Type} (cmp : α → α → Int) (a b : α) : Prop := cmp a b ≤ 0

instance cmpLeDecidable {α : Type} (cmp : α → α → Int) : DecidableRel (cmpLe cmp) :=
  fun a b => inferInstanceAs (Decidable (cmp a b ≤ 0))

/-- `Array.prototype.sort(cmp)`: a stable sort by the comparator. -/
def jsSort {α : Type} (cmp : α → α → Int) (l : List α) : List α :=
  l.insertionSort (cmpLe cmp)

/-- Three-way comparison of natural numbers, as `-1`, `0` or `1`. -/
def compareNat (a b : Nat) : Int := if a < b then -1 else if a = b then 0 else 1

/-! ## Host model: calendar dates and the `Date` built-in -/

/-- A calendar date, standing for the text `YYYY-MM-DD` (year below 10000, month
and day below 100). -/
structure CalDate where
  year : Nat
  month : Nat
  day : Nat
deriving DecidableEq

/-- `a.localeCompare(b)` on two date texts: year, then month, then day. -/
def CalDate.localeCompare (a b : CalDate) : Int :=
  jsOr (compareNat a.year b.year) (jsOr (compareNat a.month b.month) (compareNat a.day b.day))

/-- Leap years of the proleptic Gregorian calendar. -/
def isLeapYear (y : Nat) : Bool := (y % 4 == 0 && y % 100 != 0) || y % 400 == 0

/-- Number of days of month `m` (1 to 12) in year `y`; 0 for no month. -/
def daysInMonth (y m : Nat) : Nat :=
  if m = 2 then (if isLeapYear y then 29 else 28)
  else if m = 4 ∨ m = 6 ∨ m = 9 ∨ m = 11 then 30
  else if 1 ≤ m ∧ m ≤ 12 then 31 else 0

/-- The date exists and its text has the form `YYYY-MM-DD`. -/
def CalDate.Valid (d : CalDate) : Prop :=
  d.year ≤ 9999 ∧ 1 ≤ d.month ∧ d.month ≤ 12 ∧ 1 ≤ d.day ∧ d.day ≤ daysInMonth d.year d.month

instance CalDate.validDecidable (d : CalDate) : Decidable d.Valid :=
  inferInstanceAs (Decidable (_ ∧ _ ∧ _ ∧ _ ∧ _))

/-- Milliseconds per day. -/
def msPerDay : Int := 86400000

/-- Day number (days since 1970-01-01) of year `y`, month `m` (1 to 12), day `d`. -/
def daysFromCivil (y m d : Int) : Int :=
  let y1 := if m ≤ 2 then y - 1 else y
  let era := y1 / 400
  let yoe := y1 - era * 400
  let mp := (m + 9) % 12
  let doy := (153 * mp + 2) / 5 + d - 1
  let doe := yoe * 365 + yoe / 4 - yoe / 100 + doy
  era * 146097 + doe - 719468

/-- Year, month (1 to 12) and day of month of a day number. -/
def civilFromDays (z0 : Int) : Int × Int × Int :=
  let z := z0 + 719468
  let era := z / 146097
  let doe := z - era * 146097
  let yoe := (doe - doe / 1460 + doe / 36524 - doe / 146096) / 365
  let doy := doe - (365 * yoe + yoe / 4 - yoe / 100)
  let mp := (5 * doy + 2) / 153
  let d := doy - (153 * mp + 2) / 5 + 1
  let m := if mp < 10 then mp + 3 else mp - 9
  let y := yoe + era * 400
  (if m ≤ 2 then y + 1 else y, m, d)

/-- The host's local time zone: `localTZA t true` is the offset in milliseconds
at the UTC instant `t`, `localTZA t false` the offset at the local time value
`t` (the abstract operation LocalTZA of ECMAScript). -/
structure TimeZone where
  localTZA : Int → Bool → Int

/-- A zone with a constant offset from UTC (in milliseconds), such as Asia/Tokyo. -/
def fixedZone (offset : Int) : TimeZone := ⟨fun _ _ => offset⟩

/-- Milliseconds per hour. -/
def msPerHour : Int := 3600000

/-- The zone America/New_York during 2024: UTC-5, and UTC-4 from
2024-03-10 02:00 local (07:00 UTC) to 2024-11-03 02:00 local (06:00 UTC).
A skipped or repeated local time takes the offset before the transition. -/
def newYork2024 : TimeZone :=
  ⟨fun t isUTC =>
    if isUTC then
      (if daysFromCivil 2024 3 10 * msPerDay + 7 * msPerHour ≤ t
          ∧ t < daysFromCivil 2024 11 3 * msPerDay + 6 * msPerHour
        then -4 * msPerHour else -5 * msPerHour)
    else
      (if daysFromCivil 2024 3 10 * msPerDay + 3 * msPerHour ≤ t
          ∧ t < daysFromCivil 2024 11 3 * msPerDay + 2 * msPerHour
        then -4 * msPerHour else -5 * msPerHour)⟩

/-- `new Date(text)` for a date-only text `YYYY-MM-DD`, as V8 (Chromium, node)
parses it: a month from 01 to 12 and a day from 01 to 31 are accepted, whatever
the length of the month, and the time value is midnight UTC of the day
`MakeDay(year, month, day)`, so a day beyond the end of the month rolls over
into the next month; any other text gives `none`, an invalid Date. -/
def dateParse (d : CalDate) : Option Int :=
  if d.year ≤ 9999 ∧ 1 ≤ d.month ∧ d.month ≤ 12 ∧ 1 ≤ d.day ∧ d.day ≤ 31 then
    some ((daysFromCivil d.year d.month 1 + d.day - 1) * msPerDay)
  else none

/-- `LocalTime(t)` of ECMAScript. -/
def localTime (tz : TimeZone) (t : Int) : Int := t + tz.localTZA t true

/-- `UTC(t)` of ECMAScript: the time value of a local time. -/
def utcOfLocal (tz : TimeZone) (t : Int) : Int := t - tz.localTZA t false

/-- `Date.prototype.getDate`: the day of the month in local time. -/
def getDate (tz : TimeZone) (t : Int) : Int :=
  (civilFromDays (localTime tz t / msPerDay)).2.2

/-- `MakeDay(year, month, date)` of ECMAScript for a month in 1 to 12: the day
number of the first of the month plus `date - 1`. -/
def makeDay (y m dt : Int) : Int := daysFromCivil y m 1 + dt - 1

/-- `Date.prototype.setDate(dt)`: replaces the day of the month of the local
time, keeps the local time of day, and converts back to a time value. -/
def setDate (tz : TimeZone) (t : Int) (dt : Int) : Int :=
  let lt := localTime tz t
  let c := civilFromDays (lt / msPerDay)
  utcOfLocal tz (makeDay c.1 c.2.1 dt * msPerDay + lt % msPerDay)

/-- The decimal digit `n % 10` as a character. -/
def digitChar (n : Nat) : Char := Char.ofNat (48 + n % 10)

/-- The last `k` decimal digits of `n`, most significant first. -/
def padDigits : Nat → Nat → List Char
  | 0, _ => []
  | k + 1, n => padDigits k (n / 10) ++ [digitChar n]

/-- The text `YYYY-MM-DD` of a calendar date. -/
def CalDate.toIso (d : CalDate) : String :=
  String.mk (padDigits 4 d.year ++ ['-'] ++ padDigits 2 d.month ++ ['-'] ++ padDigits 2 d.day)

/-- `date.toISOString().slice(0, 10)`: the first ten characters of the UTC
rendering, which has a four-digit year from 0 to 9999 and otherwise a sign and
a six-digit year. -/
def toISOStringSlice10 (t : Int) : String :=
  let c := civilFromDays (t / msPerDay)
  let y := c.1
  let md := ['-'] ++ padDigits 2 c.2.1.toNat ++ ['-'] ++ padDigits 2 c.2.2.toNat
  if 0 ≤ y ∧ y ≤ 9999 then String.mk (padDigits 4 y.toNat ++ md)
  else String.mk (((if y < 0 then ['-'] else ['+']) ++ padDigits 6 y.natAbs ++ md).take 10)

/-- The calendar date `k` days after `d`. -/
def CalDate.addDays (d : CalDate) (k : Nat) : CalDate :=
  let c := civilFromDays (daysFromCivil d.year d.month d.day + k)
  ⟨c.1.toNat, c.2.1.toNat, c.2.2.toNat⟩

/-! ## Host model: IndexedDB object stores and transactions -/

/-- Values with which a promise of `db.js` is rejected: the ConstraintError of a
failed request, the Error thrown for a malformed snapshot, a TypeError, a
RangeError, and `null`, which is what `t.error` still holds while the error
event of a failed request reaches `t.onerror` (the transaction is aborted, and
its `error` set, only after the event has been dispatched). -/
inductive JsError where
  | constraintError
  | formatError
  | typeError
  | rangeError
  | nullReason
deriving DecidableEq

/-- Equality of settled promises is decidable. -/
instance exceptDecidableEq {ε α : Type} [DecidableEq ε] [DecidableEq α] :
    DecidableEq (Except ε α)
  | .ok a, .ok b =>
    if h : a = b then isTrue (congrArg Except.ok h)
    else isFalse (fun h1 => h (Except.ok.inj h1))
  | .error a, .error b =>
    if h : a = b then isTrue (congrArg Except.error h)
    else isFalse (fun h1 => h (Except.error.inj h1))
  | .ok _, .error _ => isFalse (fun h => Except.noConfusion h)
  | .error _, .ok _ => isFalse (fun h => Except.noConfusion h)

/-- An object store created with `keyPath: "id", autoIncrement: true`: its
records in ascending order of the key, and the key generator's current number. -/
structure ObjectStore (α : Type) where
  records : List α
  nextKey : Nat
deriving DecidableEq

/-- What `openDb` declares for a store: the key path and, as `conflict`, whether
two records have equal keys in one of the store's unique indexes. -/
structure Schema (α : Type) where
  key : α → Nat
  conflict : α → α → Bool

/-- The largest key a key generator hands out, 2^53: once its current number is
above this, generating a key fails. -/
def keyLimit : Nat := 9007199254740992

/-- A store as `onupgradeneeded` creates it: no records, generator at 1. -/
def ObjectStore.empty {α : Type} : ObjectStore α := ⟨[], 1⟩

/-- Places a record among records ordered by key. -/
def insertByKey {α : Type} (key : α → Nat) (r : α) : List α → List α
  | [] => [r]
  | x :: xs => if key r < key x then r :: x :: xs else x :: insertByKey key r xs

/-- `store.getAll()`: all records in key order. -/
def ObjectStore.getAll {α : Type} (st : ObjectStore α) : List α := st.records

/-- `store.get(k)`. -/
def ObjectStore.get {α : Type} (sch : Schema α) (st : ObjectStore α) (k : Nat) : Option α :=
  st.records.find? (fun x => sch.key x == k)

/-- `store.delete(k)`. -/
def ObjectStore.delete {α : Type} (sch : Schema α) (st : ObjectStore α) (k : Nat) :
    ObjectStore α :=
  ⟨st.records.filter (fun x => sch.key x != k), st.nextKey⟩

/-- `store.clear()`: removes the records; the key generator keeps its number. -/
def ObjectStore.clear {α : Type} (st : ObjectStore α) : ObjectStore α := ⟨[], st.nextKey⟩

/-- `store.put(r)` for a record that carries its key: the record with that key,
if any, is replaced; the request fails with ConstraintError when another record
has the same key in a unique index; a key at or above the generator's number
advances the generator to the key, capped at 2^53, plus one. -/
def ObjectStore.put {α : Type} (sch : Schema α) (st : ObjectStore α) (r : α) :
    Except JsError (ObjectStore α) :=
  let rest := st.records.filter (fun x => sch.key x != sch.key r)
  if rest.any (fun x => sch.conflict x r) then .error .constraintError
  else .ok ⟨insertByKey sch.key r rest, max st.nextKey (min (sch.key r) keyLimit + 1)⟩

/-- `store.add(v)` for a value without key: the generator supplies the key
(`mk k` is the value with key `k`); the request fails with ConstraintError when
the generator's number is above 2^53 (no key can be generated), when the key is
taken, or when a unique index already has the record's key. Returns the store
and the new key. -/
def ObjectStore.add {α : Type} (sch : Schema α) (st : ObjectStore α) (mk : Nat → α) :
    Except JsError (ObjectStore α × Nat) :=
  let r := mk st.nextKey
  if keyLimit < st.nextKey then .error .constraintError
  else if st.records.any (fun x => sch.key x == sch.key r) then .error .constraintError
  else if st.records.any (fun x => sch.conflict x r) then .error .constraintError
  else .ok (⟨insertByKey sch.key r st.records, st.nextKey + 1⟩, sch.key r)

/-- A sequence of `put` requests in one transaction, stopping at the first
failure. -/
def putAll {α : Type} (sch : Schema α) : ObjectStore α → List α → Except JsError (ObjectStore α)
  | st, [] => .ok st
  | st, r :: rs =>
    match st.put sch r with
    | .ok st1 => putAll sch st1 rs
    | .error e => .error e

/-! ## Data model (`openDb`) -/

/-- A record of the `subjects` store. -/
structure Subject where
  id : Nat
  name : String
  sortOrder : Option Int
  createdAt : String
deriving DecidableEq

/-- A record of the `units` store. -/
structure StudyUnit where
  id : Nat
  subjectId : Nat
  unitCode : String
  title : String
  createdAt : String
deriving DecidableEq

/-- A record of the `reviews` store. -/
structure Review where
  id : Nat
  unitId : Nat
  reviewNo : Nat
  doneDate : CalDate
  createdAt : String
deriving DecidableEq

/-- The `subjects` store: unique index `by_name`. -/
def subjectSchema : Schema Subject :=
  ⟨fun s => s.id, fun a b => a.name == b.name⟩

/-- The `units` store: unique index `by_subject_code` on `[subjectId, unitCode]`. -/
def unitSchema : Schema StudyUnit :=
  ⟨fun u => u.id, fun a b => a.subjectId == b.subjectId && a.unitCode == b.unitCode⟩

/-- The `reviews` store: unique indexes `by_unit_no` on `[unitId, reviewNo]` and
`by_unit_date` on `[unitId, doneDate]`. -/
def reviewSchema : Schema Review :=
  ⟨fun r => r.id, fun a b =>
    (a.unitId == b.unitId && a.reviewNo == b.reviewNo)
      || (a.unitId == b.unitId && a.doneDate == b.doneDate)⟩

/-- The database: the three object stores. -/
structure Db where
  subjects : ObjectStore Subject
  units : ObjectStore StudyUnit
  reviews : ObjectStore Review
deriving DecidableEq

/-- The database right after `openDb` created it. -/
def Db.empty : Db := ⟨ObjectStore.empty, ObjectStore.empty, ObjectStore.empty⟩

/-- End of a read-write transaction whose promise settles through
`t.oncomplete = () => resolve()` or `t.onerror = () => reject(t.error)`: a failed
request aborts the transaction, which undoes its writes, and the promise is
rejected with `t.error`, which is still `null` when the handler runs. -/
def commitOrAbort (db : Db) (body : Except JsError Db) : Except JsError Unit × Db :=
  match body with
  | .ok db1 => (.ok (), db1)
  | .error _ => (.error .nullReason, db)

/-- `arr.forEach((r, i) => ...)` seen as the list of pairs of index and element. -/
def withIndex {α : Type} : Nat → List α → List (Nat × α)
  | _, [] => []
  | i, x :: xs => (i, x) :: withIndex (i + 1) xs

/-! ## Host model: strings -/

/-- White space and line terminators of ECMAScript: what `trim` strips and what
`\s` matches. -/
def isJsSpace (c : Char) : Bool :=
  let n := c.toNat
  n == 9 || n == 10 || n == 11 || n == 12 || n == 13 || n == 32 || n == 160
    || n == 5760 || (8192 ≤ n && n ≤ 8202) || n == 8232 || n == 8233 || n == 8239
    || n == 8287 || n == 12288 || n == 65279

/-- `String.prototype.trim` on a list of characters. -/
def trimChars (l : List Char) : List Char :=
  ((l.dropWhile isJsSpace).reverse.dropWhile isJsSpace).reverse

/-- `String.prototype.trim`. -/
def jsTrim (s : String) : String := String.mk (trimChars s.data)

/-! ## `db.js` -/

/-- `clearAll(db)`: one transaction clearing the three stores. -/
def clearAll (db : Db) : Except JsError Unit × Db :=
  commitOrAbort db (.ok ⟨db.subjects.clear, db.units.clear, db.reviews.clear⟩)

/-- Comparator of `listSubjects`:
`(a.sortOrder ?? 0) - (b.sortOrder ?? 0) || a.name.localeCompare(b.name)`,
where `coll` is the host's `localeCompare` on names. -/
def subjectCmp (coll : String → String → Int) (a b : Subject) : Int :=
  jsOr (a.sortOrder.getD 0 - b.sortOrder.getD 0) (coll a.name b.name)

/-- `listSubjects(db)`. -/
def listSubjects (coll : String → String → Int) (db : Db) : List Subject :=
  jsSort (subjectCmp coll) db.subjects.getAll

/-- The destructuring swap `[subs[i], subs[j]] = [subs[j], subs[i]]` for two
positions inside the array. -/
def swapAt {α : Type} (l : List α) (i j : Nat) : List α :=
  match l[i]?, l[j]? with
  | some a, some b => (l.set i b).set j a
  | _, _ => l

/-- What the `forEach` of `moveSubject` writes for the array `l`: the element at
index `i` with `sortOrder = k + i` (the code has `k = 0`). -/
def reindexed (k : Nat) (l : List Subject) : List Subject :=
  (withIndex k l).map (fun p => { p.2 with sortOrder := some (p.1 : Int) })

/-- `moveSubject(db, subjectId, direction)`. -/
def moveSubject (coll : String → String → Int) (db : Db) (subjectId : Nat) (direction : Int) :
    Except JsError Unit × Db :=
  let subs := listSubjects coll db
  match subs.findIdx? (fun s => s.id == subjectId) with
  | none => (.ok (), db)
  | some idx =>
    let j : Int := idx + direction
    if j < 0 ∨ j ≥ subs.length then (.ok (), db)
    else
      let swapped := swapAt subs idx j.toNat
      commitOrAbort db
        ((putAll subjectSchema db.subjects (reindexed 0 swapped)).map
          (fun st => { db with subjects := st }))

/-- `getOrCreateUnit(db, subjectId, unitCode)`: the promise settles with the id
of the unit found through `by_subject_code`, or with the key of the unit added,
or is rejected with the error of the failed `add` request
(`addReq.onerror = () => reject(addReq.error)`). -/
def getOrCreateUnit (db : Db) (subjectId : Nat) (unitCode : String) (now : String) :
    Except JsError Nat × Db :=
  let code := jsTrim unitCode
  match db.units.records.find? (fun u => u.subjectId == subjectId && u.unitCode == code) with
  | some found => (.ok found.id, db)
  | none =>
    match db.units.add unitSchema (fun k => ⟨k, subjectId, code, "", now⟩) with
    | .ok (st, k) => (.ok k, { db with units := st })
    | .error e => (.error e, db)

/-- `deleteUnit(db, unitId)`: one transaction that deletes the reviews found
through the index `by_unit` and then the unit. -/
def deleteUnit (db : Db) (unitId : Nat) : Except JsError Unit × Db :=
  let found := db.reviews.records.filter (fun r => r.unitId == unitId)
  let reviews1 := found.foldl (fun st r => st.delete reviewSchema r.id) db.reviews
  commitOrAbort db (.ok { db with reviews := reviews1, units := db.units.delete unitSchema unitId })

/-- Comparator of `listReviewsByUnit`:
`a.reviewNo-b.reviewNo || a.doneDate.localeCompare(b.doneDate) || a.id-b.id`. -/
def reviewCmp (a b : Review) : Int :=
  jsOr (jsOr ((a.reviewNo : Int) - b.reviewNo) (a.doneDate.localeCompare b.doneDate))
    ((a.id : Int) - b.id)

/-- `listReviewsByUnit(db, unitId)`. -/
def listReviewsByUnit (db : Db) (unitId : Nat) : List Review :=
  jsSort reviewCmp (db.reviews.getAll.filter (fun r => r.unitId == unitId))

/-- `insertReview(db, unitId, reviewNo, doneDate)`. -/
def insertReview (db : Db) (unitId reviewNo : Nat) (doneDate : CalDate) (now : String) :
    Except JsError Unit × Db :=
  commitOrAbort db
    ((db.reviews.add reviewSchema (fun k => ⟨k, unitId, reviewNo, doneDate, now⟩)).map
      (fun p => { db with reviews := p.1 }))

/-- `deleteReview(db, reviewId)`. -/
def deleteReview (db : Db) (reviewId : Nat) : Except JsError Unit × Db :=
  commitOrAbort db (.ok { db with reviews := db.reviews.delete reviewSchema reviewId })

/-- `updateReview(db, reviewId, unitId, newReviewNo, newDoneDate)`; the code does
not use `unitId`. -/
def updateReview (db : Db) (reviewId _unitId newReviewNo : Nat) (newDoneDate : CalDate)
    (now : String) : Except JsError Unit × Db :=
  match db.reviews.get reviewSchema reviewId with
  | none => (.ok (), db)
  | some r =>
    commitOrAbort db
      ((db.reviews.put reviewSchema
          { r with reviewNo := newReviewNo, doneDate := newDoneDate, createdAt := now }).map
        (fun st => { db with reviews := st }))

/-- Comparator of `renumberReviews`:
`a.doneDate.localeCompare(b.doneDate) || a.id-b.id`. -/
def renumberCmp (a b : Review) : Int :=
  jsOr (a.doneDate.localeCompare b.doneDate) ((a.id : Int) - b.id)

/-- What `renumberReviews` writes: the reviews of the unit in its sort order,
each with `reviewNo = i + 1`. -/
def renumbered (db : Db) (unitId : Nat) : List Review :=
  (withIndex 0 (jsSort renumberCmp (listReviewsByUnit db unitId))).map
    (fun p => { p.2 with reviewNo := p.1 + 1 })

/-- `renumberReviews(db, unitId)`. -/
def renumberReviews (db : Db) (unitId : Nat) : Except JsError Unit × Db :=
  commitOrAbort db
    ((putAll reviewSchema db.reviews (renumbered db unitId)).map
      (fun st => { db with reviews := st }))

/-- `intervalDays(lastReviewNo)`. -/
def intervalDays (lastReviewNo : Nat) : Nat :=
  if lastReviewNo = 1 then 1
  else if lastReviewNo = 2 then 7
  else if lastReviewNo = 3 then 14
  else 20

/-- The object `computeUnitStatus` returns. -/
structure UnitStatus where
  lastNo : Nat
  lastDate : String
  nextDue : String
deriving DecidableEq

/-- `Math.max(...xs)` for a non-empty array of natural numbers. -/
def mathMax (xs : List Nat) : Nat := xs.foldl max 0

/-- `computeUnitStatus(db, unit)` in a host with time zone `tz`. Reading
`candidates[0].doneDate` of an empty array throws a TypeError, and
`toISOString` of an invalid Date throws a RangeError. -/
def computeUnitStatus (tz : TimeZone) (db : Db) (unit : StudyUnit) : Except JsError UnitStatus :=
  let revs := listReviewsByUnit db unit.id
  if revs.isEmpty then .ok ⟨0, "", ""⟩
  else
    let lastNo := mathMax (revs.map (fun r => r.reviewNo))
    let candidates :=
      jsSort (fun a b => (b.id : Int) - a.id) (revs.filter (fun r => r.reviewNo == lastNo))
    match candidates.head? with
    | none => .error .typeError
    | some c =>
      let lastDate := c.doneDate
      match dateParse lastDate with
      | none => .error .rangeError
      | some t =>
        let due := setDate tz t (getDate tz t + intervalDays lastNo)
        .ok ⟨lastNo, lastDate.toIso, toISOStringSlice10 due⟩

/-- The object `exportJson` returns. -/
structure Snapshot where
  schemaVersion : Nat
  exportedAt : String
  subjects : List Subject
  units : List StudyUnit
  reviews : List Review
deriving DecidableEq

/-- `exportJson(db)`. -/
def exportJson (db : Db) (now : String) : Snapshot :=
  ⟨1, now, db.subjects.getAll, db.units.getAll, db.reviews.getAll⟩

/-- The argument of `importJsonOverwrite`: each of the three properties may be
missing. -/
structure ImportData where
  subjects : Option (List Subject)
  units : Option (List StudyUnit)
  reviews : Option (List Review)
deriving DecidableEq

/-- `importJsonOverwrite(db, data)`: the check of the three arrays, then
`await clearAll(db)`, then a second transaction that puts every record. -/
def importJsonOverwrite (db : Db) (data : Option ImportData) : Except JsError Unit × Db :=
  match data with
  | some ⟨some subjects, some units, some reviews⟩ =>
    let db1 := (clearAll db).2
    commitOrAbort db1
      (match putAll subjectSchema db1.subjects subjects with
        | .error e => .error e
        | .ok s =>
          match putAll unitSchema db1.units units with
          | .error e => .error e
          | .ok u =>
            match putAll reviewSchema db1.reviews reviews with
            | .error e => .error e
            | .ok r => .ok ⟨s, u, r⟩)
  | _ => (.error .formatError, db)

/-! ## `app.js`: `parseEntries` -/

/-- The character class `[,、\s]` that separates entries. -/
def isEntrySep (c : Char) : Bool := c == ',' || c == '、' || isJsSpace c

/-- The character class `[:：=]` that separates a code from its title. -/
def isTitleSep (c : Char) : Bool := c == ':' || c == '：' || c == '='

/-- `str.split(/[...]+/)`: the pieces between maximal runs of separators. -/
def splitRuns (isSep : Char → Bool) : List Char → List (List Char)
  | [] => [[]]
  | c :: cs =>
    if isSep c then
      match cs with
      | [] => [] :: splitRuns isSep cs
      | d :: _ => if isSep d then splitRuns isSep cs else [] :: splitRuns isSep cs
    else
      match splitRuns isSep cs with
      | [] => [[c]]
      | p :: ps => (c :: p) :: ps

/-- `str.split(/[...]/)`: the pieces between single separator characters. -/
def splitEach (isSep : Char → Bool) : List Char → List (List Char)
  | [] => [[]]
  | c :: cs =>
    if isSep c then [] :: splitEach isSep cs
    else
      match splitEach isSep cs with
      | [] => [[c]]
      | p :: ps => (c :: p) :: ps

/-- An element of the array `parseEntries` returns; `none` is `null`. -/
structure Entry where
  code : String
  title : Option String
deriving DecidableEq

/-- The tokens of `parseEntries`:
`text.trim().split(/[,、\s]+/).map(s=>s.trim()).filter(Boolean)`. -/
def entryTokens (text : String) : List (List Char) :=
  ((splitRuns isEntrySep (trimChars text.data)).map trimChars).filter (fun p => !p.isEmpty)

/-- Code and title of one token, as the loop body of `parseEntries` computes
them; the title is the empty text when the token has no separator. -/
def tokenCodeTitle (p : List Char) : String × String :=
  let m := splitEach isTitleSep p
  if m.length ≥ 2 then
    (String.mk (trimChars (m.headD [])), String.mk (trimChars ([':'].intercalate m.tail)))
  else (String.mk p, "")

/-- The entry pushed for a token: `{ code, title: title || null }`. -/
def tokenEntry (p : List Char) : Entry :=
  let ct := tokenCodeTitle p
  ⟨ct.1, if ct.2 = "" then none else some ct.2⟩

/-- One round of the loop of `parseEntries` on the state `(out, seen)`. -/
def parseStep (st : List Entry × List String) (p : List Char) : List Entry × List String :=
  let e := tokenEntry p
  if st.2.contains e.code then st else (st.1 ++ [e], e.code :: st.2)

/-- `parseEntries(text)`. -/
def parseEntries (text : String) : List Entry :=
  ((entryTokens text).foldl parseStep ([], [])).1

/-! ## Invariants of the storage engine and reachable states -/

/-- The two records of every pair have the same answer to `conflict` in both
orders (an index key is compared for equality). -/
def Schema.Symm {α : Type} (sch : Schema α) : Prop :=
  ∀ a b, sch.conflict a b = sch.conflict b a

/-- What IndexedDB maintains for an object store: records in strictly ascending
key order, every key (capped at 2^53) below the generator's number, and no two
records with equal keys in a unique index. -/
structure ObjectStore.WF {α : Type} (sch : Schema α) (st : ObjectStore α) : Prop where
  sorted : st.records.Pairwise (fun a b => sch.key a < sch.key b)
  bounded : ∀ r ∈ st.records, min (sch.key r) keyLimit < st.nextKey
  unique : ∀ a ∈ st.records, ∀ b ∈ st.records, sch.key a ≠ sch.key b → sch.conflict a b = false

/-- The three stores of a database are well formed. -/
structure Db.WF (db : Db) : Prop where
  subjects : db.subjects.WF subjectSchema
  units : db.units.WF unitSchema
  reviews : db.reviews.WF reviewSchema

/-- States reached from the empty database by calls of `insertReview`,
`updateReview`, `deleteReview`, `renumberReviews` and `deleteUnit`, whether the
call succeeds or fails. -/
inductive ReviewReachable : Db → Prop where
  | empty : ReviewReachable Db.empty
  | insertReview (db : Db) (unitId reviewNo : Nat) (doneDate : CalDate) (now : String) :
      ReviewReachable db → ReviewReachable (insertReview db unitId reviewNo doneDate now).2
  | updateReview (db : Db) (reviewId unitId newReviewNo : Nat) (newDoneDate : CalDate)
      (now : String) :
      ReviewReachable db →
      ReviewReachable (updateReview db reviewId unitId newReviewNo newDoneDate now).2
  | deleteReview (db : Db) (reviewId : Nat) :
      ReviewReachable db → ReviewReachable (deleteReview db reviewId).2
  | renumberReviews (db : Db) (unitId : Nat) :
      ReviewReachable db → ReviewReachable (renumberReviews db unitId).2
  | deleteUnit (db : Db) (unitId : Nat) :
      ReviewReachable db → ReviewReachable (deleteUnit db unitId).2

/-! ## Specification-side definitions and sample states -/

/-- The records of an array have pairwise distinct ids and no two of them have
the same key in a unique index of the store. -/
def ConsistentArray {α : Type} (sch : Schema α) (l : List α) : Prop :=
  (l.map sch.key).Nodup ∧ l.Pairwise (fun a b => sch.conflict a b = false)

/-- Spec wording of the first-wins policy, for tokens that follow the tokens
`pre`: a token is kept when no token before it has its code. -/
def firstOccurrencesFrom (pre toks : List Entry) : List Entry :=
  ((withIndex pre.length toks).filter
    (fun p => ((pre ++ toks).take p.1).all (fun e => e.code != p.2.code))).map Prod.snd

/-- Spec wording of the first-wins policy: the tokens, in their order, at the
positions whose code no earlier token carries. -/
def firstOccurrences (toks : List Entry) : List Entry :=
  ((withIndex 0 toks).filter
    (fun p => (toks.take p.1).all (fun e => e.code != p.2.code))).map Prod.snd

/-- The record that a batch of rewrites `l` leaves in place of `y`. -/
def rewritten (l : List Subject) (y : Subject) : Subject :=
  (l.find? (fun r => r.id == y.id)).getD y

/-- A unit reviewed once, on 2024-03-10. -/
def dstUnit : StudyUnit := ⟨1, 1, "1-1", "", "2024-03-10T12:00:00.000Z"⟩

/-- The database holding `dstUnit` and its review number 1 of 2024-03-10. -/
def dstDb : Db :=
  { Db.empty with
    units := ⟨[dstUnit], 2⟩
    reviews := ⟨[⟨1, 1, 1, ⟨2024, 3, 10⟩, "2024-03-10T12:00:00.000Z"⟩], 2⟩ }

/-- A unit whose earlier review has number 2 and whose later review has number 1. -/
def crossedDb : Db :=
  { Db.empty with
    units := ⟨[⟨1, 1, "1-1", "", "t0"⟩], 2⟩
    reviews := ⟨[⟨1, 1, 2, ⟨2024, 1, 1⟩, "t1"⟩, ⟨2, 1, 1, ⟨2024, 2, 1⟩, "t2"⟩], 3⟩ }

/-- The state after `insertReview(db, 7, 1, "2024-01-01")` on the empty
database: a review of unit 7 and no unit 7. -/
def orphanDb : Db :=
  { Db.empty with reviews := ⟨[⟨1, 7, 1, ⟨2024, 1, 1⟩, "t1"⟩], 2⟩ }

/-- A database with one subject. -/
def oneSubjectDb : Db :=
  { Db.empty with subjects := ⟨[⟨1, "消費税法", some 0, "t0"⟩], 2⟩ }

/-- A snapshot with the three arrays in which two subjects have the same name. -/
def clashingImport : ImportData :=
  ⟨some [⟨1, "A", some 0, "t1"⟩, ⟨2, "A", some 1, "t2"⟩], some [], some []⟩

/-- A snapshot with the three arrays whose subjects are listed with id 2 first. -/
def reversedImport : ImportData :=
  ⟨some [⟨2, "B", some 0, "t2"⟩, ⟨1, "A", some 1, "t1"⟩], some [], some []⟩

/-- The state after importing into the empty database a snapshot whose only
record is a review with id 2^53: the key generator of the reviews store stands
above 2^53. -/
def exhaustedDb : Db :=
  { Db.empty with
    reviews := ⟨[⟨9007199254740992, 1, 1, ⟨2024, 1, 1⟩, "t1"⟩], 9007199254740993⟩ }

/-- The state after importing into the empty database a snapshot whose only
record is a unit with id 2^53. -/
def exhaustedUnitsDb : Db :=
  { Db.empty with
    units := ⟨[⟨9007199254740992, 1, "1-1", "", "t0"⟩], 9007199254740993⟩ }

/-- A unit and the state after `insertReview(db, 1, 1, "2024-13-01")`: its only
review carries a text that is no date. -/
def badDateDb : Db :=
  { Db.empty with
    units := ⟨[⟨1, 1, "1-1", "", "t0"⟩], 2⟩
    reviews := ⟨[⟨1, 1, 1, ⟨2024, 13, 1⟩, "t1"⟩], 2⟩ }

/-- A unit whose only review carries the text 2024-02-30. -/
def rolloverDb : Db :=
  { Db.empty with
    units := ⟨[⟨1, 1, "1-1", "", "t0"⟩], 2⟩
    reviews := ⟨[⟨1, 1, 1, ⟨2024, 2, 30⟩, "t1"⟩], 2⟩ }

/-- Three subjects with sortOrder 0, 1, 2. -/
def threeSubjectsDb : Db :=
  { Db.empty with
    subjects := ⟨[⟨1, "A", some 0, "t1"⟩, ⟨2, "B", some 1, "t2"⟩, ⟨3, "C", some 2, "t3"⟩], 4⟩ }

/-- Two reviews of unit 1 and one of unit 2. -/
def sampleDb : Db :=
  { Db.empty with
    subjects := ⟨[⟨1, "A", some 0, "t1"⟩], 2⟩
    units := ⟨[⟨1, 1, "1-1", "", "t0"⟩, ⟨2, 1, "1-2", "", "t0"⟩], 3⟩
    reviews := ⟨[⟨1, 1, 1, ⟨2024, 1, 1⟩, "t1"⟩, ⟨2, 1, 2, ⟨2024, 1, 2⟩, "t2"⟩,
      ⟨3, 2, 1, ⟨2024, 1, 1⟩, "t3"⟩], 4⟩ }

/-! ## Lemmas on the object store -/

theorem mem_insertByKey {α : Type} (key : α → Nat) (r x : α) (l : List α) :
    x ∈ insertByKey key r l ↔ x = r ∨ x ∈ l := by
  induction l with
  | nil => simp [insertByKey]
  | cons y ys ih =>
    simp only [insertByKey]
    split
    · simp
    · simp only [List.mem_cons, ih]
      tauto

theorem insertByKey_sorted {α : Type} (key : α → Nat) (r : α) (l : List α)
    (hs : l.Pairwise (fun a b => key a < key b)) (hne : ∀ x ∈ l, key x ≠ key r) :
    (insertByKey key r l).Pairwise (fun a b => key a < key b) := by
  induction l with
  | nil => simp [insertByKey]
  | cons y ys ih =>
    simp only [insertByKey]
    rw [List.pairwise_cons] at hs
    split
    · rename_i hlt
      refine List.pairwise_cons.2 ⟨?_, List.pairwise_cons.2 hs⟩
      intro b hb
      rcases List.mem_cons.1 hb with rfl | hb
      · exact hlt
      · exact lt_trans hlt (hs.1 b hb)
    · rename_i hge
      refine List.pairwise_cons.2 ⟨?_, ih hs.2 (fun x hx => hne x (List.mem_cons_of_mem _ hx))⟩
      intro b hb
      rcases (mem_insertByKey key r b ys).1 hb with rfl | hb
      · have := hne y (List.mem_cons_self _ _)
        omega
      · exact hs.1 b hb

theorem insertByKey_append {α : Type} (key : α → Nat) (r : α) (l : List α)
    (h : ∀ x ∈ l, key x < key r) : insertByKey key r l = l ++ [r] := by
  induction l with
  | nil => rfl
  | cons y ys ih =>
    have hy := h y (List.mem_cons_self _ _)
    simp only [insertByKey, if_neg (Nat.lt_asymm hy), List.cons_append]
    rw [ih (fun x hx => h x (List.mem_cons_of_mem _ hx))]

theorem insertByKey_replace {α : Type} (key : α → Nat) (r : α) (l : List α)
    (hs : l.Pairwise (fun a b => key a < key b)) (hex : ∃ x ∈ l, key x = key r) :
    insertByKey key r (l.filter (fun x => key x != key r))
      = l.map (fun y => if key y = key r then r else y) := by
  induction l with
  | nil => simp at hex
  | cons y ys ih =>
    rw [List.pairwise_cons] at hs
    by_cases hy : key y = key r
    · have hys : ∀ x ∈ ys, key r < key x := fun x hx => hy ▸ hs.1 x hx
      have hf : ys.filter (fun x => key x != key r) = ys := by
        rw [List.filter_eq_self]
        intro x hx
        have := hys x hx
        simp; omega
      have hm : ys.map (fun y => if key y = key r then r else y) = ys := by
        conv_rhs => rw [← List.map_id ys]
        apply List.map_congr_left
        intro x hx
        have := hys x hx
        simp; omega
      simp only [List.filter_cons, hy, bne_self_eq_false, List.map_cons, if_true, hf, hm]
      cases ys with
      | nil => simp [insertByKey]
      | cons z zs =>
        simp [insertByKey, hys z (List.mem_cons_self _ _)]
    · obtain ⟨x, hx, hxr⟩ := hex
      have hx' : x ∈ ys := by
        rcases List.mem_cons.1 hx with rfl | h
        · exact absurd hxr hy
        · exact h
      have hlt : key y < key r := hxr ▸ hs.1 x hx'
      have hb : (key y != key r) = true := by simp [hy]
      simp only [List.filter_cons, hb, if_true, List.map_cons, if_neg hy, insertByKey,
        if_neg (Nat.lt_asymm hlt)]
      rw [ih hs.2 ⟨x, hx', hxr⟩]

theorem put_wf {α : Type} (sch : Schema α) (hsym : sch.Symm) (st st1 : ObjectStore α) (r : α)
    (hwf : st.WF sch) (h : st.put sch r = .ok st1) : st1.WF sch := by
  unfold ObjectStore.put at h
  simp only at h
  split at h
  · cases h
  · rename_i hc
    injection h with h
    subst h
    have hc' : ∀ x ∈ st.records.filter (fun x => sch.key x != sch.key r),
        sch.conflict x r = false := by
      intro x hx
      by_contra hne
      exact hc (List.any_eq_true.2 ⟨x, hx, by simpa using hne⟩)
    have hmem : ∀ x ∈ st.records.filter (fun x => sch.key x != sch.key r),
        x ∈ st.records ∧ sch.key x ≠ sch.key r := by
      intro x hx
      rw [List.mem_filter] at hx
      exact ⟨hx.1, by simpa using hx.2⟩
    refine ⟨?_, ?_, ?_⟩
    · exact insertByKey_sorted sch.key r _ (hwf.sorted.filter _) (fun x hx => (hmem x hx).2)
    · intro x hx
      rcases (mem_insertByKey _ _ _ _).1 hx with rfl | hx
      · exact lt_of_lt_of_le (Nat.lt_succ_self _) (le_max_right _ _)
      · exact lt_of_lt_of_le (hwf.bounded x (hmem x hx).1) (le_max_left _ _)
    · intro a ha b hb hab
      rcases (mem_insertByKey _ _ _ _).1 ha with rfl | ha
      · rcases (mem_insertByKey _ _ _ _).1 hb with rfl | hb
        · exact absurd rfl hab
        · rw [hsym]; exact hc' b hb
      · rcases (mem_insertByKey _ _ _ _).1 hb with rfl | hb
        · exact hc' a ha
        · exact hwf.unique a (hmem a ha).1 b (hmem b hb).1 hab

theorem putAll_wf {α : Type} (sch : Schema α) (hsym : sch.Symm) (l : List α) :
    ∀ (st st1 : ObjectStore α), st.WF sch → putAll sch st l = .ok st1 → st1.WF sch := by
  induction l with
  | nil =>
    intro st st1 hwf h
    simp only [putAll] at h
    injection h with h
    exact h ▸ hwf
  | cons r rs ih =>
    intro st st1 hwf h
    simp only [putAll] at h
    split at h
    · rename_i st2 hput
      exact ih st2 st1 (put_wf sch hsym st st2 r hwf hput) h
    · cases h

theorem delete_wf {α : Type} (sch : Schema α) (st : ObjectStore α) (k : Nat)
    (hwf : st.WF sch) : (st.delete sch k).WF sch := by
  refine ⟨hwf.sorted.filter _, ?_, ?_⟩
  · intro r hr
    exact hwf.bounded r (List.mem_filter.1 hr).1
  · intro a ha b hb hab
    exact hwf.unique a (List.mem_filter.1 ha).1 b (List.mem_filter.1 hb).1 hab

theorem foldl_delete_wf {α : Type} (sch : Schema α) (l : List α) :
    ∀ (st : ObjectStore α), st.WF sch →
      (l.foldl (fun st r => st.delete sch (sch.key r)) st).WF sch := by
  induction l with
  | nil => intro st h; exact h
  | cons r rs ih => intro st h; exact ih _ (delete_wf sch st _ h)

theorem clear_wf {α : Type} (sch : Schema α) (st : ObjectStore α) : st.clear.WF sch := by
  refine ⟨List.Pairwise.nil, ?_, ?_⟩ <;> simp [ObjectStore.clear]

theorem empty_wf {α : Type} (sch : Schema α) : (ObjectStore.empty : ObjectStore α).WF sch := by
  refine ⟨List.Pairwise.nil, ?_, ?_⟩ <;> simp [ObjectStore.empty]

/-- In a well-formed store whose generator has not passed 2^53 every key is
below the generator's number. -/
theorem key_lt_nextKey {α : Type} (sch : Schema α) (st : ObjectStore α) (hwf : st.WF sch)
    (hlim : ¬ keyLimit < st.nextKey) : ∀ x ∈ st.records, sch.key x < st.nextKey := by
  intro x hx
  have := hwf.bounded x hx
  omega

/-- In a well-formed store `add` fails exactly when the generator has passed
2^53 or a unique index already has the key of the new record, and otherwise
appends the record under the generator's number. -/
theorem add_eq {α : Type} (sch : Schema α) (st : ObjectStore α) (mk : Nat → α)
    (hmk : ∀ k, sch.key (mk k) = k) (hwf : st.WF sch) :
    st.add sch mk =
      if keyLimit < st.nextKey then .error .constraintError
      else if st.records.any (fun x => sch.conflict x (mk st.nextKey)) then
        .error .constraintError
      else .ok (⟨st.records ++ [mk st.nextKey], st.nextKey + 1⟩, st.nextKey) := by
  unfold ObjectStore.add
  by_cases hlim : keyLimit < st.nextKey
  · simp only [if_pos hlim]
  · have hlt := key_lt_nextKey sch st hwf hlim
    have hk : st.records.any (fun x => sch.key x == st.nextKey) = false := by
      rw [List.any_eq_false]
      intro x hx
      have := hlt x hx
      simp; omega
    have happ : insertByKey sch.key (mk st.nextKey) st.records = st.records ++ [mk st.nextKey] :=
      insertByKey_append _ _ _ (fun x hx => by rw [hmk]; exact hlt x hx)
    simp only [if_neg hlim, hmk, hk, happ]
    rfl

theorem add_wf {α : Type} (sch : Schema α) (hsym : sch.Symm) (st st1 : ObjectStore α)
    (mk : Nat → α) (k : Nat) (hmk : ∀ k, sch.key (mk k) = k) (hwf : st.WF sch)
    (h : st.add sch mk = .ok (st1, k)) : st1.WF sch := by
  rw [add_eq sch st mk hmk hwf] at h
  split at h
  · cases h
  · rename_i hlim
    split at h
    · cases h
    · rename_i hc
      injection h with h
      injection h with h1 h2
      subst h1
      have hlt := key_lt_nextKey sch st hwf hlim
      have hc' : ∀ x ∈ st.records, sch.conflict x (mk st.nextKey) = false := by
        intro x hx
        by_contra hne
        exact hc (List.any_eq_true.2 ⟨x, hx, by simpa using hne⟩)
      refine ⟨?_, ?_, ?_⟩
      · refine List.pairwise_append.2 ⟨hwf.sorted, List.pairwise_singleton _ _, ?_⟩
        intro a ha b hb
        rw [List.mem_singleton.1 hb, hmk]
        exact hlt a ha
      · intro x hx
        rcases List.mem_append.1 hx with hx | hx
        · exact Nat.lt_succ_of_lt (hwf.bounded x hx)
        · rw [List.mem_singleton.1 hx, hmk]
          exact Nat.lt_succ_of_le (Nat.min_le_left _ _)
      · intro a ha b hb hab
        rcases List.mem_append.1 ha with ha | ha
        · rcases List.mem_append.1 hb with hb | hb
          · exact hwf.unique a ha b hb hab
          · rw [List.mem_singleton.1 hb]; exact hc' a ha
        · rcases List.mem_append.1 hb with hb | hb
          · rw [List.mem_singleton.1 ha, hsym]; exact hc' b hb
          · rw [List.mem_singleton.1 ha, List.mem_singleton.1 hb] at hab
            exact absurd rfl hab

theorem subjectSchema_symm : subjectSchema.Symm := by
  intro a b
  simp only [subjectSchema]
  rw [Bool.eq_iff_iff]
  simp only [beq_iff_eq]
  exact eq_comm

theorem unitSchema_symm : unitSchema.Symm := by
  intro a b
  simp only [unitSchema]
  rw [Bool.eq_iff_iff]
  simp only [Bool.and_eq_true, beq_iff_eq]
  constructor <;> rintro ⟨h1, h2⟩ <;> exact ⟨h1.symm, h2.symm⟩

theorem reviewSchema_symm : reviewSchema.Symm := by
  intro a b
  simp only [reviewSchema]
  rw [Bool.eq_iff_iff]
  simp only [Bool.or_eq_true, Bool.and_eq_true, beq_iff_eq]
  constructor <;> rintro (⟨h1, h2⟩ | ⟨h1, h2⟩)
  · exact Or.inl ⟨h1.symm, h2.symm⟩
  · exact Or.inr ⟨h1.symm, h2.symm⟩
  · exact Or.inl ⟨h1.symm, h2.symm⟩
  · exact Or.inr ⟨h1.symm, h2.symm⟩

/-! ## The review operations keep the reviews store well formed -/

theorem insertReview_wf (db : Db) (unitId reviewNo : Nat) (doneDate : CalDate) (now : String)
    (hwf : db.reviews.WF reviewSchema) :
    (insertReview db unitId reviewNo doneDate now).2.reviews.WF reviewSchema := by
  unfold insertReview
  cases h : db.reviews.add reviewSchema (fun k => ⟨k, unitId, reviewNo, doneDate, now⟩) with
  | error e => exact hwf
  | ok p =>
    obtain ⟨st1, k⟩ := p
    exact add_wf reviewSchema reviewSchema_symm db.reviews st1
      (fun k => ⟨k, unitId, reviewNo, doneDate, now⟩) k (fun _ => rfl) hwf h

theorem updateReview_wf (db : Db) (reviewId unitId newReviewNo : Nat) (newDoneDate : CalDate)
    (now : String) (hwf : db.reviews.WF reviewSchema) :
    (updateReview db reviewId unitId newReviewNo newDoneDate now).2.reviews.WF reviewSchema := by
  unfold updateReview
  cases hg : db.reviews.get reviewSchema reviewId with
  | none => exact hwf
  | some r =>
    cases h : db.reviews.put reviewSchema
        { r with reviewNo := newReviewNo, doneDate := newDoneDate, createdAt := now } with
    | error e => simpa [commitOrAbort, h, Except.map] using hwf
    | ok st1 =>
      simpa [commitOrAbort, h, Except.map] using put_wf reviewSchema reviewSchema_symm _ _ _ hwf h

theorem deleteReview_wf (db : Db) (reviewId : Nat) (hwf : db.reviews.WF reviewSchema) :
    (deleteReview db reviewId).2.reviews.WF reviewSchema :=
  delete_wf reviewSchema db.reviews reviewId hwf

theorem renumberReviews_wf (db : Db) (unitId : Nat) (hwf : db.reviews.WF reviewSchema) :
    (renumberReviews db unitId).2.reviews.WF reviewSchema := by
  unfold renumberReviews
  cases h : putAll reviewSchema db.reviews (renumbered db unitId) with
  | error e => simpa [commitOrAbort, h, Except.map] using hwf
  | ok st1 =>
    simpa [commitOrAbort, h, Except.map] using
      putAll_wf reviewSchema reviewSchema_symm _ _ _ hwf h

theorem deleteUnit_wf (db : Db) (unitId : Nat) (hwf : db.reviews.WF reviewSchema) :
    (deleteUnit db unitId).2.reviews.WF reviewSchema :=
  foldl_delete_wf reviewSchema _ db.reviews hwf

theorem reviewReachable_wf {db : Db} (h : ReviewReachable db) : db.reviews.WF reviewSchema := by
  induction h with
  | empty => exact empty_wf reviewSchema
  | insertReview db u n d now _ ih => exact insertReview_wf db u n d now ih
  | updateReview db i u n d now _ ih => exact updateReview_wf db i u n d now ih
  | deleteReview db i _ ih => exact deleteReview_wf db i ih
  | renumberReviews db u _ ih => exact renumberReviews_wf db u ih
  | deleteUnit db u _ ih => exact deleteUnit_wf db u ih

/-- Two different records of a well-formed store have different keys. -/
theorem key_ne_of_ne {α : Type} (sch : Schema α) (st : ObjectStore α) (hwf : st.WF sch)
    (a b : α) (ha : a ∈ st.records) (hb : b ∈ st.records) (hab : a ≠ b) :
    sch.key a ≠ sch.key b := by
  have hp : st.records.Pairwise (fun a b => sch.key a ≠ sch.key b) :=
    hwf.sorted.imp (fun h => Nat.ne_of_lt h)
  exact hp.forall (fun x y h => h.symm) ha hb hab

/-- In a well-formed reviews store no two different reviews of one unit share a
review number or a date. -/
theorem reviews_unique_of_wf (st : ObjectStore Review) (hwf : st.WF reviewSchema)
    (r1 r2 : Review) (h1 : r1 ∈ st.records) (h2 : r2 ∈ st.records) (hne : r1 ≠ r2)
    (hu : r1.unitId = r2.unitId) : r1.reviewNo ≠ r2.reviewNo ∧ r1.doneDate ≠ r2.doneDate := by
  have hk := key_ne_of_ne reviewSchema st hwf r1 r2 h1 h2 hne
  have hc := hwf.unique r1 h1 r2 h2 hk
  simp only [reviewSchema, Bool.or_eq_false_iff, Bool.and_eq_false_iff, beq_eq_false_iff_ne] at hc
  constructor
  · rcases hc.1 with h | h
    · exact absurd hu h
    · exact h
  · rcases hc.2 with h | h
    · exact absurd hu h
    · exact h

/-- C5. In every state reachable from the empty store by calls of insertReview,
updateReview, deleteReview, renumberReviews and deleteUnit with arbitrary
arguments, two distinct reviews of the same unit never share a reviewNo and
never share a doneDate (and distinct reviews have distinct ids). -/
theorem reachable_reviews_unique (db : Db) (h : ReviewReachable db) :
    ∀ r1 ∈ db.reviews.records, ∀ r2 ∈ db.reviews.records, r1 ≠ r2 →
      r1.id ≠ r2.id ∧
      (r1.unitId = r2.unitId → r1.reviewNo ≠ r2.reviewNo ∧ r1.doneDate ≠ r2.doneDate) := by
  intro r1 h1 r2 h2 hne
  have hwf := reviewReachable_wf h
  exact ⟨key_ne_of_ne reviewSchema _ hwf r1 r2 h1 h2 hne,
    reviews_unique_of_wf _ hwf r1 r2 h1 h2 hne⟩

/-- What `insertReview` does in a well-formed store: rejected, with the database
unchanged, when the key generator has passed 2^53 or a unique index already has
the pair; otherwise fulfilled with one review appended. -/
theorem insertReview_eq (db : Db) (unitId reviewNo : Nat) (doneDate : CalDate)
    (now : String) (hwf : db.reviews.WF reviewSchema) :
    ((keyLimit < db.reviews.nextKey ∨
        ∃ r ∈ db.reviews.records,
          r.unitId = unitId ∧ (r.reviewNo = reviewNo ∨ r.doneDate = doneDate)) →
      insertReview db unitId reviewNo doneDate now = (.error .nullReason, db)) ∧
    (db.reviews.nextKey ≤ keyLimit →
      (¬ ∃ r ∈ db.reviews.records,
          r.unitId = unitId ∧ (r.reviewNo = reviewNo ∨ r.doneDate = doneDate)) →
      insertReview db unitId reviewNo doneDate now
        = (.ok (), { db with reviews :=
            ⟨db.reviews.records ++ [⟨db.reviews.nextKey, unitId, reviewNo, doneDate, now⟩],
              db.reviews.nextKey + 1⟩ })) := by
  have hadd := add_eq reviewSchema db.reviews
    (fun k => ⟨k, unitId, reviewNo, doneDate, now⟩) (fun _ => rfl) hwf
  have hdup : (db.reviews.records.any (fun x => reviewSchema.conflict x
        ⟨db.reviews.nextKey, unitId, reviewNo, doneDate, now⟩) = true) ↔
      ∃ r ∈ db.reviews.records,
        r.unitId = unitId ∧ (r.reviewNo = reviewNo ∨ r.doneDate = doneDate) := by
    rw [List.any_eq_true]
    constructor
    · rintro ⟨r, hr, hc⟩
      refine ⟨r, hr, ?_⟩
      simp only [reviewSchema, Bool.or_eq_true, Bool.and_eq_true, beq_iff_eq] at hc
      rcases hc with ⟨a, b⟩ | ⟨a, b⟩
      · exact ⟨a, Or.inl b⟩
      · exact ⟨a, Or.inr b⟩
    · rintro ⟨r, hr, hu, hc⟩
      refine ⟨r, hr, ?_⟩
      simp only [reviewSchema, Bool.or_eq_true, Bool.and_eq_true, beq_iff_eq]
      rcases hc with b | b
      · exact Or.inl ⟨hu, b⟩
      · exact Or.inr ⟨hu, b⟩
  unfold insertReview
  rw [hadd]
  constructor
  · intro h
    by_cases hlim : keyLimit < db.reviews.nextKey
    · rw [if_pos hlim]
      rfl
    · rcases h with h | h
      · exact absurd h hlim
      · rw [if_neg hlim, if_pos (hdup.2 h)]
        rfl
  · intro hgen hno
    have hlim : ¬ keyLimit < db.reviews.nextKey := Nat.not_lt.2 hgen
    have hc : ¬ (db.reviews.records.any (fun x => reviewSchema.conflict x
        ⟨db.reviews.nextKey, unitId, reviewNo, doneDate, now⟩) = true) :=
      fun h => hno (hdup.1 h)
    rw [if_neg hlim, if_neg hc]
    rfl

/-- C2 (amended). In a well-formed store: while the key generator of the reviews
store has not passed 2^53, insertReview is rejected exactly when a review with
the same (unitId, reviewNo) or the same (unitId, doneDate) is stored, and a call
that is fulfilled leaves a database that differs only by one more review, under
a fresh id, with the three given fields; a rejected call leaves the database as
it was; once the generator has passed 2^53 every call is rejected. -/
theorem insertReview_duplicateKey (db : Db) (unitId reviewNo : Nat) (doneDate : CalDate)
    (now : String) (hwf : db.reviews.WF reviewSchema) :
    (db.reviews.nextKey ≤ keyLimit →
      ((insertReview db unitId reviewNo doneDate now).1 ≠ .ok () ↔
        ∃ r ∈ db.reviews.records,
          r.unitId = unitId ∧ (r.reviewNo = reviewNo ∨ r.doneDate = doneDate)) ∧
      ((insertReview db unitId reviewNo doneDate now).1 = .ok () →
        (∀ r ∈ db.reviews.records, r.id ≠ db.reviews.nextKey) ∧
        (insertReview db unitId reviewNo doneDate now).2 =
          { db with reviews :=
              ⟨db.reviews.records ++ [⟨db.reviews.nextKey, unitId, reviewNo, doneDate, now⟩],
                db.reviews.nextKey + 1⟩ })) ∧
    ((insertReview db unitId reviewNo doneDate now).1 ≠ .ok () →
      (insertReview db unitId reviewNo doneDate now).2 = db) ∧
    (keyLimit < db.reviews.nextKey →
      (insertReview db unitId reviewNo doneDate now).1 ≠ .ok ()) := by
  obtain ⟨hrej, hok⟩ := insertReview_eq db unitId reviewNo doneDate now hwf
  refine ⟨?_, ?_, ?_⟩
  · intro hgen
    have hlt := key_lt_nextKey reviewSchema db.reviews hwf (Nat.not_lt.2 hgen)
    by_cases hdup : ∃ r ∈ db.reviews.records,
        r.unitId = unitId ∧ (r.reviewNo = reviewNo ∨ r.doneDate = doneDate)
    · rw [hrej (Or.inr hdup)]
      refine ⟨⟨fun _ => hdup, fun _ h => by cases h⟩, fun h => by cases h⟩
    · rw [hok hgen hdup]
      exact ⟨⟨fun h => absurd rfl h, fun h => absurd h hdup⟩,
        fun _ => ⟨fun r hr => Nat.ne_of_lt (hlt r hr), rfl⟩⟩
  · intro h
    by_cases hcase : keyLimit < db.reviews.nextKey ∨ ∃ r ∈ db.reviews.records,
        r.unitId = unitId ∧ (r.reviewNo = reviewNo ∨ r.doneDate = doneDate)
    · rw [hrej hcase]
    · rw [not_or] at hcase
      rw [hok (Nat.not_lt.1 hcase.1) hcase.2] at h
      exact absurd rfl h
  · intro hlim
    rw [hrej (Or.inl hlim)]
    intro h
    cases h

/-- Counterexample to C2 as stated: the store that an import of one review with
id 2^53 leaves is well formed and holds no review of unit 2, yet
insertReview(db, 2, 1, "2024-02-02") is rejected and stores nothing: the key
generator stands above 2^53 and no key can be generated. -/
theorem insertReview_exhausted :
    importJsonOverwrite Db.empty
        (some ⟨some [], some [], some [⟨9007199254740992, 1, 1, ⟨2024, 1, 1⟩, "t1"⟩]⟩)
      = (.ok (), exhaustedDb) ∧
    exhaustedDb.reviews.WF reviewSchema ∧
    ¬ (∃ r ∈ exhaustedDb.reviews.records,
        r.unitId = 2 ∧ (r.reviewNo = 1 ∨ r.doneDate = ⟨2024, 2, 2⟩)) ∧
    insertReview exhaustedDb 2 1 ⟨2024, 2, 2⟩ "t2" = (.error .nullReason, exhaustedDb) := by
  refine ⟨by decide, ⟨by decide, by decide, by decide⟩, by decide, by decide⟩

/-! ## Evaluations at sample states -/

/-- C1 (the code departs from the claim). In a host in the zone America/New_York,
a unit whose only review is number 1 of 2024-03-10 gets nextDue 2024-03-10,
while the date one day (intervalDays 1) after lastDate is 2024-03-11: the local
day-of-month arithmetic crosses the start of daylight saving time and the UTC
rendering falls back to the previous day. -/
theorem computeUnitStatus_dst :
    computeUnitStatus newYork2024 dstDb dstUnit = .ok ⟨1, "2024-03-10", "2024-03-10"⟩ ∧
    ((CalDate.mk 2024 3 10).addDays (intervalDays 1)).toIso = "2024-03-11" := by
  constructor <;> decide

/-- C3 (the code departs from the claim). On a well-formed database whose unit 1
has an earlier review numbered 2 and a later review numbered 1,
renumberReviews is rejected and nothing is renumbered: the first write, number
1 for the earlier review, meets the unique index by_unit_no while the later
review still has number 1, so the writes fail with ConstraintError and the
transaction is aborted (the promise carries t.error, still null). The records
it set out to write are the claimed numbering. -/
theorem renumberReviews_crossed :
    renumberReviews crossedDb 1 = (.error .nullReason, crossedDb) ∧
    putAll reviewSchema crossedDb.reviews (renumbered crossedDb 1) = .error .constraintError ∧
    crossedDb.WF ∧
    (renumbered crossedDb 1).map (fun r => (r.id, r.reviewNo)) = [(1, 1), (2, 2)] := by
  refine ⟨by decide, by decide, ⟨⟨by decide, by decide, by decide⟩,
    ⟨by decide, by decide, by decide⟩, ⟨by decide, by decide, by decide⟩⟩, by decide⟩

/-- C7 (the code departs from the claim). Importing a snapshot that has the three
arrays but two subjects of the same name is rejected (the second put fails with
ConstraintError; the promise carries t.error, still null) and leaves the
subjects store empty: the clearing was committed by its own transaction before
the rejected write, so the former subject is lost. -/
theorem importJsonOverwrite_clears :
    importJsonOverwrite oneSubjectDb (some clashingImport)
      = (.error .nullReason, { oneSubjectDb with subjects := ⟨[], 2⟩ }) ∧
    putAll subjectSchema (clearAll oneSubjectDb).2.subjects
      [⟨1, "A", some 0, "t1"⟩, ⟨2, "A", some 1, "t2"⟩] = .error .constraintError ∧
    (importJsonOverwrite oneSubjectDb (some clashingImport)).2 ≠ oneSubjectDb := by
  refine ⟨by decide, by decide, by decide⟩

/-- Counterexample to C4 as stated: no unit has id 7, yet deleteUnit 7 changes the
database, because it deletes the review that refers to unit 7. -/
theorem deleteUnit_orphan_not_noop :
    ¬ ((∀ u ∈ orphanDb.units.records, u.id ≠ 7) → (deleteUnit orphanDb 7).2 = orphanDb) := by
  decide

/-! ## `deleteUnit` -/

/-- Two records of a well-formed store with the same key are the same record. -/
theorem key_inj {α : Type} (sch : Schema α) (st : ObjectStore α) (hwf : st.WF sch)
    (a b : α) (ha : a ∈ st.records) (hb : b ∈ st.records) (h : sch.key a = sch.key b) :
    a = b := by
  by_contra hne
  exact key_ne_of_ne sch st hwf a b ha hb hne h

theorem foldl_delete_nextKey {α : Type} (sch : Schema α) (l : List α) :
    ∀ (st : ObjectStore α),
      (l.foldl (fun st r => st.delete sch (sch.key r)) st).nextKey = st.nextKey := by
  induction l with
  | nil => intro st; rfl
  | cons r rs ih => intro st; rw [List.foldl_cons, ih]; rfl

theorem foldl_delete_records {α : Type} (sch : Schema α) (l : List α) :
    ∀ (st : ObjectStore α),
      (l.foldl (fun st r => st.delete sch (sch.key r)) st).records
        = st.records.filter (fun x => !(l.any (fun r => sch.key r == sch.key x))) := by
  induction l with
  | nil => intro st; simp
  | cons r rs ih =>
    intro st
    rw [List.foldl_cons, ih]
    simp only [ObjectStore.delete, List.filter_filter, List.any_cons]
    apply List.filter_congr
    intro x _
    by_cases h1 : sch.key x = sch.key r
    · simp [h1]
    · have e1 : (sch.key x != sch.key r) = true := by simp [h1]
      have e2 : (sch.key r == sch.key x) = false := by
        simp only [beq_eq_false_iff_ne]
        exact fun h => h1 h.symm
      rw [e1, e2]
      simp

/-- The cascade of `deleteUnit` removes exactly the reviews of the unit. -/
theorem deleteUnit_reviews (db : Db) (unitId : Nat) (hwf : db.reviews.WF reviewSchema) :
    (deleteUnit db unitId).2.reviews
      = ⟨db.reviews.records.filter (fun r => r.unitId != unitId), db.reviews.nextKey⟩ := by
  have hrec := foldl_delete_records reviewSchema
    (db.reviews.records.filter (fun r => r.unitId == unitId)) db.reviews
  have hnk := foldl_delete_nextKey reviewSchema
    (db.reviews.records.filter (fun r => r.unitId == unitId)) db.reviews
  have hfilter : db.reviews.records.filter (fun x =>
        !((db.reviews.records.filter (fun r => r.unitId == unitId)).any
          (fun r => reviewSchema.key r == reviewSchema.key x)))
      = db.reviews.records.filter (fun r => r.unitId != unitId) := by
    apply List.filter_congr
    intro x hx
    by_cases hu : x.unitId = unitId
    · have : (db.reviews.records.filter (fun r => r.unitId == unitId)).any
          (fun r => reviewSchema.key r == reviewSchema.key x) = true := by
        rw [List.any_eq_true]
        exact ⟨x, List.mem_filter.2 ⟨hx, by simp [hu]⟩, by simp⟩
      simp [this, hu]
    · have : (db.reviews.records.filter (fun r => r.unitId == unitId)).any
          (fun r => reviewSchema.key r == reviewSchema.key x) = false := by
        rw [List.any_eq_false]
        intro y hy hk
        rw [List.mem_filter] at hy
        have hyx : y = x :=
          key_inj reviewSchema db.reviews hwf y x hy.1 hx (by simpa using hk)
        subst hyx
        exact hu (by simpa using hy.2)
      simp [this, hu]
  show (List.foldl (fun st r => st.delete reviewSchema (reviewSchema.key r)) db.reviews
      (db.reviews.records.filter (fun r => r.unitId == unitId))) = _
  cases hfold : List.foldl (fun st r => st.delete reviewSchema (reviewSchema.key r)) db.reviews
      (db.reviews.records.filter (fun r => r.unitId == unitId)) with
  | mk recs nk =>
    rw [hfold] at hrec hnk
    simp only at hrec hnk
    rw [hrec, hnk, hfilter]

/-- C4 (amended). deleteUnit is fulfilled; afterwards the units are the former
units without the one of that id and the reviews are the former reviews
without those of that unit, so no unit has the id, no review has the unitId and
listReviewsByUnit returns the empty list; subjects and key generators are
unchanged; and if neither a unit with that id nor a review with that unitId
existed, the database is unchanged. -/
theorem deleteUnit_cascade (db : Db) (unitId : Nat) (hwf : db.reviews.WF reviewSchema) :
    (deleteUnit db unitId).1 = .ok () ∧
    (deleteUnit db unitId).2.subjects = db.subjects ∧
    (deleteUnit db unitId).2.units
      = ⟨db.units.records.filter (fun u => u.id != unitId), db.units.nextKey⟩ ∧
    (deleteUnit db unitId).2.reviews
      = ⟨db.reviews.records.filter (fun r => r.unitId != unitId), db.reviews.nextKey⟩ ∧
    (∀ u ∈ (deleteUnit db unitId).2.units.records, u.id ≠ unitId) ∧
    (∀ r ∈ (deleteUnit db unitId).2.reviews.records, r.unitId ≠ unitId) ∧
    listReviewsByUnit (deleteUnit db unitId).2 unitId = [] ∧
    ((∀ u ∈ db.units.records, u.id ≠ unitId) → (∀ r ∈ db.reviews.records, r.unitId ≠ unitId) →
      (deleteUnit db unitId).2 = db) := by
  have hr := deleteUnit_reviews db unitId hwf
  have hu : (deleteUnit db unitId).2.units
      = ⟨db.units.records.filter (fun u => u.id != unitId), db.units.nextKey⟩ := rfl
  have hnone : ∀ r ∈ (deleteUnit db unitId).2.reviews.records, r.unitId ≠ unitId := by
    intro r h
    rw [hr] at h
    simpa using (List.mem_filter.1 h).2
  refine ⟨rfl, rfl, hu, hr, ?_, hnone, ?_, ?_⟩
  · intro u h
    rw [hu] at h
    simpa using (List.mem_filter.1 h).2
  · have hempty : (deleteUnit db unitId).2.reviews.getAll.filter (fun r => r.unitId == unitId)
        = [] := by
      rw [List.filter_eq_nil_iff]
      intro r h
      simpa using hnone r h
    unfold listReviewsByUnit
    rw [hempty]
    rfl
  · intro h1 h2
    have e1 : db.units.records.filter (fun u => u.id != unitId) = db.units.records := by
      rw [List.filter_eq_self]
      intro u h
      simpa using h1 u h
    have e2 : db.reviews.records.filter (fun r => r.unitId != unitId) = db.reviews.records := by
      rw [List.filter_eq_self]
      intro r h
      simpa using h2 r h
    have hs : (deleteUnit db unitId).2.subjects = db.subjects := rfl
    cases hdb : (deleteUnit db unitId).2 with
    | mk s u r =>
      rw [hdb] at hr hu hs
      simp only at hr hu hs
      rw [hr, hu, hs, e1, e2]

/-! ## `getOrCreateUnit` -/

/-- The lookup of `getOrCreateUnit` through `by_subject_code` finds the one unit
with the pair, when the store has it. -/
theorem find_unit_of_mem (st : ObjectStore StudyUnit) (hwf : st.WF unitSchema)
    (subjectId : Nat) (code : String) (u : StudyUnit) (hu : u ∈ st.records)
    (hs : u.subjectId = subjectId) (hc : u.unitCode = code) :
    st.records.find? (fun u => u.subjectId == subjectId && u.unitCode == code) = some u := by
  cases hf : st.records.find? (fun u => u.subjectId == subjectId && u.unitCode == code) with
  | none =>
    rw [List.find?_eq_none] at hf
    exact absurd (by simp [hs, hc]) (hf u hu)
  | some v =>
    have hv := List.mem_of_find?_eq_some hf
    have hp := List.find?_some hf
    simp only [Bool.and_eq_true, beq_iff_eq] at hp
    by_cases hvu : v = u
    · rw [hvu]
    · have hk := key_ne_of_ne unitSchema st hwf v u hv hu hvu
      have := hwf.unique v hv u hu hk
      simp [unitSchema, hp.1, hp.2, hs, hc] at this

/-- What `getOrCreateUnit` does when no unit has the pair and the key generator
has not passed 2^53. -/
theorem getOrCreateUnit_create (db : Db) (subjectId : Nat) (unitCode now : String)
    (hwf : db.units.WF unitSchema) (hgen : db.units.nextKey ≤ keyLimit)
    (hno : ∀ u ∈ db.units.records, ¬ (u.subjectId = subjectId ∧ u.unitCode = jsTrim unitCode)) :
    getOrCreateUnit db subjectId unitCode now
      = (.ok db.units.nextKey,
          { db with units :=
              ⟨db.units.records ++ [⟨db.units.nextKey, subjectId, jsTrim unitCode, "", now⟩],
                db.units.nextKey + 1⟩ }) := by
  have hfind : db.units.records.find?
      (fun u => u.subjectId == subjectId && u.unitCode == jsTrim unitCode) = none := by
    rw [List.find?_eq_none]
    intro u hu
    simpa using hno u hu
  have hany : ¬ (db.units.records.any (fun x => unitSchema.conflict x
      ⟨db.units.nextKey, subjectId, jsTrim unitCode, "", now⟩) = true) := by
    rw [Bool.not_eq_true, List.any_eq_false]
    intro u hu
    simpa [unitSchema] using hno u hu
  have hadd := add_eq unitSchema db.units
    (fun k => ⟨k, subjectId, jsTrim unitCode, "", now⟩) (fun _ => rfl) hwf
  rw [if_neg (Nat.not_lt.2 hgen), if_neg hany] at hadd
  unfold getOrCreateUnit
  simp only [hfind, hadd]

/-- What `getOrCreateUnit` does when no unit has the pair and the key generator
has passed 2^53: the `add` request fails and nothing is stored. -/
theorem getOrCreateUnit_exhausted (db : Db) (subjectId : Nat) (unitCode now : String)
    (hlim : keyLimit < db.units.nextKey)
    (hno : ∀ u ∈ db.units.records, ¬ (u.subjectId = subjectId ∧ u.unitCode = jsTrim unitCode)) :
    getOrCreateUnit db subjectId unitCode now = (.error .constraintError, db) := by
  have hfind : db.units.records.find?
      (fun u => u.subjectId == subjectId && u.unitCode == jsTrim unitCode) = none := by
    rw [List.find?_eq_none]
    intro u hu
    simpa using hno u hu
  unfold getOrCreateUnit ObjectStore.add
  simp only [hfind, if_pos hlim]

theorem getOrCreateUnit_wf (db : Db) (subjectId : Nat) (unitCode now : String)
    (hwf : db.units.WF unitSchema) :
    (getOrCreateUnit db subjectId unitCode now).2.units.WF unitSchema := by
  unfold getOrCreateUnit
  simp only
  split
  · exact hwf
  · split
    · rename_i st k h
      exact add_wf unitSchema unitSchema_symm db.units st
        (fun k => ⟨k, subjectId, jsTrim unitCode, "", now⟩) k (fun _ => rfl) hwf h
    · exact hwf

/-- C9 (amended). With `code` the trimmed unitCode, in a well-formed store: when
a unit with (subjectId, code) exists, getOrCreateUnit returns its id and leaves
the database unchanged; otherwise, while the key generator of the units store
has not passed 2^53, it adds exactly one unit, under a fresh id, with that
subjectId, the trimmed code and an empty title, and returns its id, and once
the generator has passed 2^53 it is rejected with the ConstraintError of the
add request and stores nothing; a second call with the same arguments settles
as the first did and changes nothing; and the store still holds no two units
with the same (subjectId, unitCode). -/
theorem getOrCreateUnit_idempotent (db : Db) (subjectId : Nat) (unitCode now : String)
    (hwf : db.units.WF unitSchema) :
    (∀ u ∈ db.units.records, u.subjectId = subjectId → u.unitCode = jsTrim unitCode →
      getOrCreateUnit db subjectId unitCode now = (.ok u.id, db)) ∧
    ((∀ u ∈ db.units.records, ¬ (u.subjectId = subjectId ∧ u.unitCode = jsTrim unitCode)) →
      (db.units.nextKey ≤ keyLimit →
        (∀ u ∈ db.units.records, u.id ≠ db.units.nextKey) ∧
        getOrCreateUnit db subjectId unitCode now
          = (.ok db.units.nextKey,
              { db with units :=
                  ⟨db.units.records
                      ++ [⟨db.units.nextKey, subjectId, jsTrim unitCode, "", now⟩],
                    db.units.nextKey + 1⟩ })) ∧
      (keyLimit < db.units.nextKey →
        getOrCreateUnit db subjectId unitCode now = (.error .constraintError, db))) ∧
    (∀ now2 : String,
      getOrCreateUnit (getOrCreateUnit db subjectId unitCode now).2 subjectId unitCode now2
        = getOrCreateUnit db subjectId unitCode now) ∧
    (∀ u1 ∈ (getOrCreateUnit db subjectId unitCode now).2.units.records,
      ∀ u2 ∈ (getOrCreateUnit db subjectId unitCode now).2.units.records,
        u1 ≠ u2 → ¬ (u1.subjectId = u2.subjectId ∧ u1.unitCode = u2.unitCode)) := by
  have hfound : ∀ (d : Db), d.units.WF unitSchema → ∀ (t : String), ∀ u ∈ d.units.records,
      u.subjectId = subjectId → u.unitCode = jsTrim unitCode →
      getOrCreateUnit d subjectId unitCode t = (.ok u.id, d) := by
    intro d hd t u hu hs hc
    unfold getOrCreateUnit
    simp only [find_unit_of_mem d.units hd subjectId (jsTrim unitCode) u hu hs hc]
  refine ⟨hfound db hwf now, ?_, ?_, ?_⟩
  · intro hno
    refine ⟨fun hgen => ⟨?_, getOrCreateUnit_create db subjectId unitCode now hwf hgen hno⟩,
      fun hlim => getOrCreateUnit_exhausted db subjectId unitCode now hlim hno⟩
    intro u hu
    exact Nat.ne_of_lt (key_lt_nextKey unitSchema db.units hwf (Nat.not_lt.2 hgen) u hu)
  · intro now2
    by_cases hex : ∃ u ∈ db.units.records, u.subjectId = subjectId ∧ u.unitCode = jsTrim unitCode
    · obtain ⟨u, hu, hs, hc⟩ := hex
      rw [hfound db hwf now u hu hs hc]
      exact hfound db hwf now2 u hu hs hc
    · have hno : ∀ u ∈ db.units.records,
          ¬ (u.subjectId = subjectId ∧ u.unitCode = jsTrim unitCode) :=
        fun u hu h => hex ⟨u, hu, h⟩
      by_cases hlim : keyLimit < db.units.nextKey
      · rw [getOrCreateUnit_exhausted db subjectId unitCode now hlim hno]
        exact getOrCreateUnit_exhausted db subjectId unitCode now2 hlim hno
      · have hgen : db.units.nextKey ≤ keyLimit := Nat.not_lt.1 hlim
        have hwf2 := getOrCreateUnit_wf db subjectId unitCode now hwf
        rw [getOrCreateUnit_create db subjectId unitCode now hwf hgen hno] at hwf2 ⊢
        exact hfound _ hwf2 now2 ⟨db.units.nextKey, subjectId, jsTrim unitCode, "", now⟩
          (List.mem_append_right _ (List.mem_singleton_self _)) rfl rfl
  · intro u1 h1 u2 h2 hne hpair
    have hwf2 := getOrCreateUnit_wf db subjectId unitCode now hwf
    have hk := key_ne_of_ne unitSchema _ hwf2 u1 u2 h1 h2 hne
    have := hwf2.unique u1 h1 u2 h2 hk
    simp [unitSchema, hpair.1, hpair.2] at this

/-- Counterexample to C9 as stated. No unit has the pair (1, " 1-1"), and the call
does not add a unit with that pair: the unit it adds has the code "1-1". And in
a store that holds a unit with id 2^53 (an import can bring it) no unit has
the pair (1, "2-2"), yet the call adds nothing and returns no id: the add
request fails because no key can be generated. -/
theorem getOrCreateUnit_untrimmed :
    (∀ u ∈ Db.empty.units.records, ¬ (u.subjectId = 1 ∧ u.unitCode = " 1-1")) ∧
    ¬ (∃ k, (getOrCreateUnit Db.empty 1 " 1-1" "t").2.units.records
        = Db.empty.units.records ++ [⟨k, 1, " 1-1", "", "t"⟩]) ∧
    (importJsonOverwrite Db.empty
        (some ⟨some [], some [⟨9007199254740992, 1, "1-1", "", "t0"⟩], some []⟩)).2
      = exhaustedUnitsDb ∧
    exhaustedUnitsDb.units.WF unitSchema ∧
    (∀ u ∈ exhaustedUnitsDb.units.records, ¬ (u.subjectId = 1 ∧ u.unitCode = "2-2")) ∧
    getOrCreateUnit exhaustedUnitsDb 1 "2-2" "t" = (.error .constraintError, exhaustedUnitsDb) := by
  refine ⟨by decide, ?_, by decide, ⟨by decide, by decide, by decide⟩, by decide, by decide⟩
  rintro ⟨k, hk⟩
  have h : (getOrCreateUnit Db.empty 1 " 1-1" "t").2.units.records
      = [⟨1, 1, "1-1", "", "t"⟩] := by decide
  rw [h] at hk
  simp [Db.empty, ObjectStore.empty] at hk

/-! ## `importJsonOverwrite` and `exportJson` -/

theorem perm_insertByKey {α : Type} (key : α → Nat) (r : α) (l : List α) :
    (insertByKey key r l).Perm (r :: l) := by
  induction l with
  | nil => exact List.Perm.refl _
  | cons y ys ih =>
    simp only [insertByKey]
    split
    · exact List.Perm.refl _
    · exact (List.Perm.cons y ih).trans (List.Perm.swap r y ys)

theorem put_fresh {α : Type} (sch : Schema α) (st : ObjectStore α) (r : α)
    (hk : ∀ x ∈ st.records, sch.key x ≠ sch.key r)
    (hc : ∀ x ∈ st.records, sch.conflict x r = false) :
    st.put sch r
      = .ok ⟨insertByKey sch.key r st.records,
          max st.nextKey (min (sch.key r) keyLimit + 1)⟩ := by
  unfold ObjectStore.put
  have hf : st.records.filter (fun x => sch.key x != sch.key r) = st.records := by
    rw [List.filter_eq_self]
    intro x hx
    simpa using hk x hx
  have ha : st.records.any (fun x => sch.conflict x r) = false := by
    rw [List.any_eq_false]
    intro x hx
    simp [hc x hx]
  simp only [hf, ha]
  rfl

theorem putAll_fresh {α : Type} (sch : Schema α) (l : List α) :
    ∀ (st : ObjectStore α),
      (l.map sch.key).Nodup → l.Pairwise (fun a b => sch.conflict a b = false) →
      (∀ r ∈ l, ∀ x ∈ st.records, sch.key x ≠ sch.key r ∧ sch.conflict x r = false) →
      ∃ st1, putAll sch st l = .ok st1 ∧ st1.records.Perm (st.records ++ l) := by
  induction l with
  | nil =>
    intro st _ _ _
    exact ⟨st, rfl, by simp⟩
  | cons r rs ih =>
    intro st hnd hpw hst
    rw [List.map_cons, List.nodup_cons] at hnd
    rw [List.pairwise_cons] at hpw
    have hput := put_fresh sch st r
      (fun x hx => (hst r (List.mem_cons_self _ _) x hx).1)
      (fun x hx => (hst r (List.mem_cons_self _ _) x hx).2)
    obtain ⟨st1, h1, h2⟩ := ih ⟨insertByKey sch.key r st.records,
        max st.nextKey (min (sch.key r) keyLimit + 1)⟩
      hnd.2 hpw.2 (by
        intro r1 hr1 x hx
        rcases (mem_insertByKey _ _ _ _).1 hx with rfl | hx
        · refine ⟨?_, hpw.1 r1 hr1⟩
          intro hk
          exact hnd.1 (hk ▸ List.mem_map_of_mem sch.key hr1)
        · exact hst r1 (List.mem_cons_of_mem _ hr1) x hx)
    refine ⟨st1, ?_, ?_⟩
    · simp only [putAll, hput]
      exact h1
    · refine h2.trans ?_
      simp only
      refine ((perm_insertByKey sch.key r st.records).append_right rs).trans ?_
      simp only [List.cons_append]
      exact (List.perm_middle).symm

/-- Putting a consistent array into a cleared store succeeds and stores exactly
its records, in ascending key order. -/
theorem putAll_cleared {α : Type} (sch : Schema α) (hsym : sch.Symm) (st : ObjectStore α)
    (l : List α) (h : ConsistentArray sch l) :
    ∃ st1, putAll sch st.clear l = .ok st1 ∧ st1.records.Perm l ∧
      st1.records.Pairwise (fun a b => sch.key a < sch.key b) ∧
      (l.Pairwise (fun a b => sch.key a < sch.key b) → st1.records = l) := by
  obtain ⟨st1, h1, h2⟩ := putAll_fresh sch l st.clear h.1 h.2
    (by intro r _ x hx; simp [ObjectStore.clear] at hx)
  have hwf := putAll_wf sch hsym l st.clear st1 (clear_wf sch st) h1
  have hperm : st1.records.Perm l := by simpa [ObjectStore.clear] using h2
  refine ⟨st1, h1, hperm, hwf.sorted, ?_⟩
  intro hl
  haveI : IsAntisymm α (fun a b => sch.key a < sch.key b) :=
    ⟨fun a b hab hba => absurd hab (Nat.lt_asymm hba)⟩
  exact List.eq_of_perm_of_sorted hperm hwf.sorted hl

/-- C8 (amended). When within each array of the snapshot the ids are pairwise
distinct and no two records have the same key in a unique index,
importJsonOverwrite is fulfilled whatever the prior state, and exportJson
afterwards returns for subjects, units and reviews exactly the records of the
snapshot (same ids and fields) in ascending id order, hence the snapshot array
itself when that is in ascending id order; no prior record survives. -/
theorem import_then_export (db : Db) (subjects : List Subject) (units : List StudyUnit)
    (reviews : List Review) (now : String)
    (hs : ConsistentArray subjectSchema subjects) (hu : ConsistentArray unitSchema units)
    (hr : ConsistentArray reviewSchema reviews) :
    (importJsonOverwrite db (some ⟨some subjects, some units, some reviews⟩)).1 = .ok () ∧
    ((exportJson (importJsonOverwrite db (some ⟨some subjects, some units, some reviews⟩)).2
        now).subjects.Perm subjects ∧
      (exportJson (importJsonOverwrite db (some ⟨some subjects, some units, some reviews⟩)).2
        now).subjects.Pairwise (fun a b => a.id < b.id) ∧
      (subjects.Pairwise (fun a b => a.id < b.id) →
        (exportJson (importJsonOverwrite db (some ⟨some subjects, some units, some reviews⟩)).2
          now).subjects = subjects)) ∧
    ((exportJson (importJsonOverwrite db (some ⟨some subjects, some units, some reviews⟩)).2
        now).units.Perm units ∧
      (exportJson (importJsonOverwrite db (some ⟨some subjects, some units, some reviews⟩)).2
        now).units.Pairwise (fun a b => a.id < b.id) ∧
      (units.Pairwise (fun a b => a.id < b.id) →
        (exportJson (importJsonOverwrite db (some ⟨some subjects, some units, some reviews⟩)).2
          now).units = units)) ∧
    ((exportJson (importJsonOverwrite db (some ⟨some subjects, some units, some reviews⟩)).2
        now).reviews.Perm reviews ∧
      (exportJson (importJsonOverwrite db (some ⟨some subjects, some units, some reviews⟩)).2
        now).reviews.Pairwise (fun a b => a.id < b.id) ∧
      (reviews.Pairwise (fun a b => a.id < b.id) →
        (exportJson (importJsonOverwrite db (some ⟨some subjects, some units, some reviews⟩)).2
          now).reviews = reviews)) := by
  obtain ⟨s1, hs1, hs2, hs3, hs4⟩ := putAll_cleared subjectSchema subjectSchema_symm db.subjects
    subjects hs
  obtain ⟨u1, hu1, hu2, hu3, hu4⟩ := putAll_cleared unitSchema unitSchema_symm db.units units hu
  obtain ⟨r1, hr1, hr2, hr3, hr4⟩ := putAll_cleared reviewSchema reviewSchema_symm db.reviews
    reviews hr
  have himp : importJsonOverwrite db (some ⟨some subjects, some units, some reviews⟩)
      = (.ok (), ⟨s1, u1, r1⟩) := by
    simp only [importJsonOverwrite, clearAll, commitOrAbort, hs1, hu1, hr1]
  rw [himp]
  exact ⟨rfl, ⟨hs2, hs3, hs4⟩, ⟨hu2, hu3, hu4⟩, ⟨hr2, hr3, hr4⟩⟩

/-- Counterexample to C8 as stated: a snapshot with the three arrays whose
subjects are listed with id 2 before id 1 is imported, and the export lists
them in another order than the snapshot. -/
theorem import_then_export_reorders :
    (importJsonOverwrite Db.empty (some reversedImport)).1 = .ok () ∧
    some (exportJson (importJsonOverwrite Db.empty (some reversedImport)).2 "t").subjects
      ≠ reversedImport.subjects := by
  constructor <;> decide

/-- A snapshot that lacks one of the three arrays is rejected with the format
error and the database is left as it was. -/
theorem importJsonOverwrite_formatError (db : Db) (data : Option ImportData)
    (h : data = none ∨ ∃ d, data = some d ∧
      (d.subjects = none ∨ d.units = none ∨ d.reviews = none)) :
    importJsonOverwrite db data = (.error .formatError, db) := by
  rcases h with rfl | ⟨d, rfl, hd⟩
  · rfl
  · obtain ⟨s, u, r⟩ := d
    simp only at hd
    rcases hd with rfl | rfl | rfl
    · rfl
    · cases s <;> rfl
    · cases s <;> cases u <;> rfl

/-! ## `parseEntries` -/

theorem firstOccurrencesFrom_cons (pre : List Entry) (e : Entry) (es : List Entry) :
    firstOccurrencesFrom pre (e :: es)
      = if pre.all (fun x => x.code != e.code) then e :: firstOccurrencesFrom (pre ++ [e]) es
        else firstOccurrencesFrom (pre ++ [e]) es := by
  have htake : (pre ++ e :: es).take pre.length = pre := by simp
  have hrest : (withIndex (pre.length + 1) es).filter
        (fun p => ((pre ++ e :: es).take p.1).all (fun x => x.code != p.2.code))
      = (withIndex (pre ++ [e]).length es).filter
        (fun p => (((pre ++ [e]) ++ es).take p.1).all (fun x => x.code != p.2.code)) := by
    simp
  unfold firstOccurrencesFrom
  simp only [withIndex, List.filter_cons, htake, hrest]
  split <;> simp

theorem firstOccurrences_eq (toks : List Entry) :
    firstOccurrences toks = firstOccurrencesFrom [] toks := by
  simp [firstOccurrences, firstOccurrencesFrom]

/-- The loop of `parseEntries`, started after the tokens `pre` with their codes
in `seen`, appends the first occurrences among the remaining tokens. -/
theorem foldl_parseStep (toks : List (List Char)) :
    ∀ (pre out : List Entry) (seen : List String),
      (∀ c, c ∈ seen ↔ c ∈ pre.map (fun e => e.code)) →
      (toks.foldl parseStep (out, seen)).1
        = out ++ firstOccurrencesFrom pre (toks.map tokenEntry) := by
  induction toks with
  | nil =>
    intro pre out seen _
    simp [firstOccurrencesFrom, withIndex]
  | cons p ps ih =>
    intro pre out seen hseen
    rw [List.foldl_cons, List.map_cons, firstOccurrencesFrom_cons]
    have hall : pre.all (fun x => x.code != (tokenEntry p).code) = true
        ↔ ¬ (tokenEntry p).code ∈ seen := by
      rw [hseen, List.all_eq_true]
      simp only [List.mem_map, not_exists, not_and, bne_iff_ne, ne_eq]
    by_cases hc : (tokenEntry p).code ∈ seen
    · have hstep : parseStep (out, seen) p = (out, seen) := by
        simp [parseStep, hc]
      have hfalse : ¬ pre.all (fun x => x.code != (tokenEntry p).code) = true :=
        fun h => hall.1 h hc
      rw [hstep, if_neg hfalse]
      apply ih
      intro c
      rw [hseen, List.map_append, List.mem_append]
      constructor
      · exact Or.inl
      · rintro (h | h)
        · exact h
        · simp only [List.map_cons, List.map_nil, List.mem_singleton] at h
          rw [h, ← hseen]
          exact hc
    · have hstep : parseStep (out, seen) p = (out ++ [tokenEntry p], (tokenEntry p).code :: seen) := by
        simp [parseStep, hc]
      rw [hstep, if_pos (hall.2 hc), ih (pre ++ [tokenEntry p])]
      · simp
      · intro c
        rw [List.map_append, List.mem_append, List.mem_cons, hseen]
        simp only [List.map_cons, List.map_nil, List.mem_singleton]
        tauto

theorem firstOccurrencesFrom_nodup (toks : List Entry) :
    ∀ (pre : List Entry),
      ((firstOccurrencesFrom pre toks).map (fun e => e.code)).Nodup ∧
      ∀ c ∈ (firstOccurrencesFrom pre toks).map (fun e => e.code),
        c ∉ pre.map (fun e => e.code) := by
  induction toks with
  | nil => intro pre; simp [firstOccurrencesFrom, withIndex]
  | cons e es ih =>
    intro pre
    obtain ⟨h1, h2⟩ := ih (pre ++ [e])
    have h2' : ∀ c ∈ (firstOccurrencesFrom (pre ++ [e]) es).map (fun e => e.code),
        c ∉ pre.map (fun e => e.code) ∧ c ≠ e.code := by
      intro c hc
      have := h2 c hc
      simp only [List.map_append, List.mem_append, List.map_cons, List.map_nil,
        List.mem_singleton, not_or] at this
      exact this
    rw [firstOccurrencesFrom_cons]
    split
    · rename_i hall
      rw [List.all_eq_true] at hall
      refine ⟨?_, ?_⟩
      · rw [List.map_cons, List.nodup_cons]
        exact ⟨fun hmem => (h2' _ hmem).2 rfl, h1⟩
      · intro c hc
        rw [List.map_cons, List.mem_cons] at hc
        rcases hc with rfl | hc
        · intro hmem
          obtain ⟨x, hx, hxc⟩ := List.mem_map.1 hmem
          have := hall x hx
          simp only [bne_iff_ne, ne_eq] at this
          exact this hxc
        · exact (h2' c hc).1
    · exact ⟨h1, fun c hc => (h2' c hc).1⟩

/-- C6. For every input text the codes of parseEntries are pairwise distinct and
the result consists of the entries of the tokens, in token order, at those
positions whose code no earlier token carries (so each code appears where it
first occurs, with the title of that first token, null when it has none); and
parseEntries("1-1:入門, 1-1:別名, 2-3") is [(1-1, 入門), (2-3, null)]. -/
theorem parseEntries_first_wins :
    (∀ text : String,
      ((parseEntries text).map (fun e => e.code)).Nodup ∧
      parseEntries text = firstOccurrences ((entryTokens text).map tokenEntry)) ∧
    parseEntries "1-1:入門, 1-1:別名, 2-3" = [⟨"1-1", some "入門"⟩, ⟨"2-3", none⟩] := by
  refine ⟨fun text => ?_, by decide⟩
  have h : parseEntries text = firstOccurrences ((entryTokens text).map tokenEntry) := by
    unfold parseEntries
    rw [foldl_parseStep (entryTokens text) [] [] [] (by simp), firstOccurrences_eq]
    simp
  refine ⟨?_, h⟩
  rw [h, firstOccurrences_eq]
  exact (firstOccurrencesFrom_nodup _ []).1

/-! ## `moveSubject`

### Sorting a permutation of a strictly ordered list -/

theorem orderedInsert_append {α : Type} (r : α → α → Prop) [DecidableRel r] (a : α)
    (t1 t2 : List α) (h1 : ∀ x ∈ t1, ¬ r a x) (h2 : ∀ y ∈ t2, r a y) :
    List.orderedInsert r a (t1 ++ t2) = t1 ++ a :: t2 := by
  induction t1 with
  | nil =>
    cases t2 with
    | nil => rfl
    | cons y ys =>
      simp only [List.nil_append, List.orderedInsert, if_pos (h2 y (List.mem_cons_self _ _))]
  | cons x xs ih =>
    have e := ih (fun y hy => h1 y (List.mem_cons_of_mem _ hy))
    rw [List.cons_append, List.cons_append]
    show (if r a x then a :: x :: (xs ++ t2) else x :: List.orderedInsert r a (xs ++ t2)) = _
    rw [if_neg (h1 x (List.mem_cons_self _ _)), e]

/-- A stable sort returns the one strictly ordered arrangement of its input. -/
theorem insertionSort_eq_of_perm {α : Type} (r : α → α → Prop) [DecidableRel r] (l : List α) :
    ∀ (t : List α), l.Perm t → t.Pairwise (fun a b => r a b ∧ ¬ r b a) →
      l.insertionSort r = t := by
  induction l with
  | nil =>
    intro t hp _
    rw [← List.Perm.nil_eq hp]
    rfl
  | cons a l ih =>
    intro t hp hs
    have ha : a ∈ t := hp.subset (List.mem_cons_self _ _)
    obtain ⟨t1, t2, rfl⟩ := List.append_of_mem ha
    have hp' : l.Perm (t1 ++ t2) := (hp.trans List.perm_middle).cons_inv
    have hs' : (t1 ++ t2).Pairwise (fun a b => r a b ∧ ¬ r b a) :=
      hs.sublist (List.Sublist.append_left (List.sublist_cons_self a t2) t1)
    rw [List.insertionSort, ih (t1 ++ t2) hp' hs']
    rw [List.pairwise_append] at hs
    apply orderedInsert_append
    · intro x hx
      exact (hs.2.2 x hx a (List.mem_cons_self _ _)).2
    · intro y hy
      exact ((List.pairwise_cons.1 hs.2.1).1 y hy).1

/-! ### Rewriting records in place -/

theorem put_replace {α : Type} (sch : Schema α) (st : ObjectStore α) (r : α)
    (hwf : st.WF sch) (hex : ∃ x ∈ st.records, sch.key x = sch.key r)
    (hc : ∀ x ∈ st.records, sch.key x ≠ sch.key r → sch.conflict x r = false) :
    st.put sch r
      = .ok ⟨st.records.map (fun y => if sch.key y = sch.key r then r else y), st.nextKey⟩ := by
  unfold ObjectStore.put
  have ha : (st.records.filter (fun x => sch.key x != sch.key r)).any
      (fun x => sch.conflict x r) = false := by
    rw [List.any_eq_false]
    intro x hx
    rw [List.mem_filter] at hx
    simp [hc x hx.1 (by simpa using hx.2)]
  have hmax : max st.nextKey (min (sch.key r) keyLimit + 1) = st.nextKey := by
    obtain ⟨x, hx, hxr⟩ := hex
    have := hwf.bounded x hx
    rw [hxr] at this
    exact Nat.max_eq_left this
  simp only [ha, hmax, insertByKey_replace sch.key r st.records hwf.sorted hex]
  rfl

theorem putAll_rewrite (l : List Subject) :
    ∀ (st : ObjectStore Subject), st.WF subjectSchema → (l.map (fun s => s.id)).Nodup →
      (∀ r ∈ l, ∃ x ∈ st.records, x.id = r.id ∧ x.name = r.name) →
      putAll subjectSchema st l = .ok ⟨st.records.map (rewritten l), st.nextKey⟩ := by
  induction l with
  | nil =>
    intro st _ _ _
    have : st.records.map (rewritten []) = st.records := by
      conv_rhs => rw [← List.map_id st.records]
      exact List.map_congr_left (fun _ _ => rfl)
    simp only [putAll, this]
  | cons r rs ih =>
    intro st hwf hnd hex
    rw [List.map_cons, List.nodup_cons] at hnd
    obtain ⟨x0, hx0, hid0, hname0⟩ := hex r (List.mem_cons_self _ _)
    have hput := put_replace subjectSchema st r hwf ⟨x0, hx0, hid0⟩ (by
      intro x hx hk
      have hk' : subjectSchema.key x ≠ subjectSchema.key x0 := by
        intro h
        exact hk (h.trans hid0)
      have := hwf.unique x hx x0 hx0 hk'
      simp only [subjectSchema, beq_eq_false_iff_ne, ne_eq] at this ⊢
      rw [← hname0]
      exact this)
    have hwf1 := put_wf subjectSchema subjectSchema_symm st _ r hwf hput
    have hex1 : ∀ r1 ∈ rs, ∃ x ∈ (st.records.map
        (fun y => if subjectSchema.key y = subjectSchema.key r then r else y)),
        x.id = r1.id ∧ x.name = r1.name := by
      intro r1 hr1
      obtain ⟨x, hx, hid, hname⟩ := hex r1 (List.mem_cons_of_mem _ hr1)
      refine ⟨x, List.mem_map.2 ⟨x, hx, ?_⟩, hid, hname⟩
      have : ¬ subjectSchema.key x = subjectSchema.key r := by
        intro h
        apply hnd.1
        have h' : r.id = r1.id := h.symm.trans hid
        rw [h']
        exact List.mem_map_of_mem (fun s => s.id) hr1
      rw [if_neg this]
    have := ih _ hwf1 hnd.2 hex1
    simp only [putAll, hput, this, List.map_map]
    congr 2
    apply List.map_congr_left
    intro y _
    simp only [Function.comp, rewritten, List.find?_cons]
    by_cases hy : y.id = r.id
    · have h1 : subjectSchema.key y = subjectSchema.key r := hy
      have h2 : (r.id == y.id) = true := by simp [hy]
      have h3 : rs.find? (fun r1 => r1.id == r.id) = none := by
        rw [List.find?_eq_none]
        intro r1 hr1 hbeq
        apply hnd.1
        have : r1.id = r.id := by simpa using hbeq
        rw [← this]
        exact List.mem_map_of_mem (fun s => s.id) hr1
      simp only [h1, if_true, h2, h3, Option.getD]
    · have h1 : ¬ subjectSchema.key y = subjectSchema.key r := hy
      have h2 : (r.id == y.id) = false := by
        simp only [beq_eq_false_iff_ne]
        exact fun h => hy h.symm
      simp only [h1, if_false, h2]

/-! ### What `moveSubject` writes -/

theorem reindexed_cons (k : Nat) (x : Subject) (xs : List Subject) :
    reindexed k (x :: xs) = { x with sortOrder := some (k : Int) } :: reindexed (k + 1) xs := rfl

theorem reindexed_fields (l : List Subject) : ∀ (k : Nat),
    (reindexed k l).map (fun s => (s.id, s.name, s.createdAt))
      = l.map (fun s => (s.id, s.name, s.createdAt)) := by
  induction l with
  | nil => intro k; rfl
  | cons x xs ih => intro k; rw [reindexed_cons, List.map_cons, ih]; rfl

theorem reindexed_sortOrder (l : List Subject) : ∀ (k : Nat),
    (reindexed k l).map (fun s => s.sortOrder)
      = (List.range' k l.length).map (fun (i : Nat) => some (i : Int)) := by
  induction l with
  | nil => intro k; rfl
  | cons x xs ih =>
    intro k
    rw [reindexed_cons, List.map_cons, ih, List.length_cons, List.range'_succ, List.map_cons]

theorem reindexed_mem (l : List Subject) : ∀ (k : Nat) (t : Subject), t ∈ reindexed k l →
    ∃ s ∈ l, t.id = s.id ∧ t.name = s.name ∧ ∃ i : Nat, k ≤ i ∧ t.sortOrder = some (i : Int) := by
  induction l with
  | nil => intro k t h; simp [reindexed, withIndex] at h
  | cons x xs ih =>
    intro k t h
    rw [reindexed_cons, List.mem_cons] at h
    rcases h with rfl | h
    · exact ⟨x, List.mem_cons_self _ _, rfl, rfl, k, Nat.le_refl _, rfl⟩
    · obtain ⟨s, hs, h1, h2, i, hi, h3⟩ := ih (k + 1) t h
      exact ⟨s, List.mem_cons_of_mem _ hs, h1, h2, i, Nat.le_of_succ_le hi, h3⟩

theorem reindexed_sorted (coll : String → String → Int) (l : List Subject) : ∀ (k : Nat),
    (reindexed k l).Pairwise
      (fun a b => cmpLe (subjectCmp coll) a b ∧ ¬ cmpLe (subjectCmp coll) b a) := by
  induction l with
  | nil => intro k; exact List.Pairwise.nil
  | cons x xs ih =>
    intro k
    rw [reindexed_cons, List.pairwise_cons]
    refine ⟨?_, ih (k + 1)⟩
    intro t ht
    obtain ⟨s, _, _, _, i, hi, h3⟩ := reindexed_mem xs (k + 1) t ht
    have hne : (k : Int) - (i : Int) ≠ 0 := by omega
    have hne' : (i : Int) - (k : Int) ≠ 0 := by omega
    simp only [cmpLe, subjectCmp, jsOr, h3, Option.getD_some, if_neg hne, if_neg hne']
    omega

theorem rewritten_reindexed (l : List Subject) : ∀ (k : Nat), (l.map (fun s => s.id)).Nodup →
    l.map (rewritten (reindexed k l)) = reindexed k l := by
  induction l with
  | nil => intro k _; rfl
  | cons x xs ih =>
    intro k hnd
    rw [List.map_cons, List.nodup_cons] at hnd
    rw [reindexed_cons, List.map_cons]
    congr 1
    · simp [rewritten, List.find?_cons]
    · rw [← ih (k + 1) hnd.2]
      apply List.map_congr_left
      intro y hy
      have hxy : ¬ x.id = y.id := by
        intro h
        exact hnd.1 (h ▸ List.mem_map_of_mem (fun s => s.id) hy)
      have hb : (x.id == y.id) = false := by simp [hxy]
      simp only [rewritten, List.find?_cons, hb]
      rw [ih (k + 1) hnd.2]

/-! ### The destructuring swap -/

theorem set_perm_aux {α : Type} (l : List α) : ∀ (j : Nat) (a b : α), l[j]? = some b →
    (b :: l.set j a).Perm (a :: l) := by
  induction l with
  | nil => intro j a b h; simp at h
  | cons c t ih =>
    intro j a b h
    cases j with
    | zero =>
      simp only [List.getElem?_cons_zero, Option.some.injEq] at h
      subst h
      exact List.Perm.swap _ _ _
    | succ j =>
      simp only [List.getElem?_cons_succ] at h
      simp only [List.set_cons_succ]
      exact (List.Perm.swap _ _ _).trans (((ih j a b h).cons c).trans (List.Perm.swap _ _ _))

theorem set_set_perm {α : Type} (l : List α) : ∀ (i j : Nat) (a b : α),
    l[i]? = some a → l[j]? = some b → ((l.set i b).set j a).Perm l := by
  induction l with
  | nil => intro i j a b h; simp at h
  | cons c t ih =>
    intro i j a b hi hj
    cases i with
    | zero =>
      simp only [List.getElem?_cons_zero, Option.some.injEq] at hi
      subst hi
      cases j with
      | zero =>
        simp only [List.set_cons_zero]
        exact List.Perm.refl _
      | succ j =>
        simp only [List.getElem?_cons_succ] at hj
        simp only [List.set_cons_zero, List.set_cons_succ]
        exact set_perm_aux t j c b hj
    | succ i =>
      simp only [List.getElem?_cons_succ] at hi
      cases j with
      | zero =>
        simp only [List.getElem?_cons_zero, Option.some.injEq] at hj
        subst hj
        simp only [List.set_cons_zero, List.set_cons_succ]
        exact set_perm_aux t i c a hi
      | succ j =>
        simp only [List.getElem?_cons_succ] at hj
        simp only [List.set_cons_succ]
        exact (ih i j a b hi hj).cons c

theorem swapAt_perm {α : Type} (l : List α) (i j : Nat) : (swapAt l i j).Perm l := by
  unfold swapAt
  split
  · rename_i a b hi hj
    exact set_set_perm l i j a b hi hj
  · exact List.Perm.refl _

theorem swapAt_map {α β : Type} (f : α → β) (l : List α) (i j : Nat) :
    (swapAt l i j).map f = swapAt (l.map f) i j := by
  unfold swapAt
  cases hi : l[i]? with
  | none => simp [hi]
  | some a =>
    cases hj : l[j]? with
    | none => simp [hi, hj]
    | some b => simp [hi, hj, List.map_set]

/-- After the swap the element of position `i` is at position `j`, that of
position `j` at position `i`, and every other position keeps its element. -/
theorem swapAt_getElem? {α : Type} (l : List α) (i j k : Nat) (hi : i < l.length)
    (hj : j < l.length) :
    (swapAt l i j)[k]? = if k = j then l[i]? else if k = i then l[j]? else l[k]? := by
  unfold swapAt
  rw [List.getElem?_eq_getElem hi, List.getElem?_eq_getElem hj]
  simp only [List.getElem?_set, List.length_set]
  by_cases hkj : k = j
  · subst hkj
    simp [hj]
  · have hjk : ¬ j = k := fun h => hkj h.symm
    by_cases hki : k = i
    · subst hki
      simp [hjk, hkj, hi, List.getElem?_eq_getElem hj]
    · have hik : ¬ i = k := fun h => hki h.symm
      simp [hjk, hkj, hik, hki]

theorem findIdx?_lt {α : Type} (p : α → Bool) (l : List α) (i : Nat)
    (h : l.findIdx? p = some i) : i < l.length := by
  have := List.findIdx?_of_eq_some h
  by_contra hge
  rw [List.getElem?_eq_none (Nat.le_of_not_lt hge)] at this
  simp at this

/-! ### `moveSubject` -/

theorem listSubjects_perm (coll : String → String → Int) (db : Db) :
    (listSubjects coll db).Perm db.subjects.records :=
  List.perm_insertionSort _ _

theorem ids_nodup {α : Type} (sch : Schema α) (st : ObjectStore α) (hwf : st.WF sch) :
    (st.records.map sch.key).Nodup := by
  rw [List.Nodup, List.pairwise_map]
  exact hwf.sorted.imp (fun h => Nat.ne_of_lt h)

/-- What a move that passes the two guards of `moveSubject` does. -/
theorem moveSubject_apply (coll : String → String → Int) (db : Db)
    (hwf : db.subjects.WF subjectSchema) (subjectId : Nat) (d : Int) (i : Nat)
    (hi : (listSubjects coll db).findIdx? (fun s => s.id == subjectId) = some i)
    (h0 : 0 ≤ (i : Int) + d) (h1 : (i : Int) + d < (listSubjects coll db).length) :
    (moveSubject coll db subjectId d).1 = .ok () ∧
    (moveSubject coll db subjectId d).2.units = db.units ∧
    (moveSubject coll db subjectId d).2.reviews = db.reviews ∧
    listSubjects coll (moveSubject coll db subjectId d).2
      = reindexed 0 (swapAt (listSubjects coll db) i ((i : Int) + d).toNat) := by
  have hperm : (swapAt (listSubjects coll db) i ((i : Int) + d).toNat).Perm db.subjects.records :=
    (swapAt_perm _ _ _).trans (listSubjects_perm coll db)
  have hnd : ((swapAt (listSubjects coll db) i ((i : Int) + d).toNat).map
      (fun s => s.id)).Nodup :=
    ((hperm.map (fun s => s.id)).nodup_iff).2 (ids_nodup subjectSchema db.subjects hwf)
  have hnd' : ((reindexed 0 (swapAt (listSubjects coll db) i ((i : Int) + d).toNat)).map
      (fun s => s.id)).Nodup := by
    have h := congrArg (List.map (fun p : Nat × String × String => p.1))
      (reindexed_fields (swapAt (listSubjects coll db) i ((i : Int) + d).toNat) 0)
    simp only [List.map_map] at h
    have e : ((fun p : Nat × String × String => p.1) ∘ fun s : Subject => (s.id, s.name, s.createdAt))
        = fun s : Subject => s.id := rfl
    rw [e] at h
    rw [h]
    exact hnd
  have hput := putAll_rewrite (reindexed 0 (swapAt (listSubjects coll db) i ((i : Int) + d).toNat))
    db.subjects hwf hnd' (by
      intro r hr
      obtain ⟨s, hs, h1, h2, _⟩ := reindexed_mem _ 0 r hr
      exact ⟨s, hperm.subset hs, h1.symm, h2.symm⟩)
  have hguard : ¬ ((i : Int) + d < 0 ∨ (i : Int) + d ≥ (listSubjects coll db).length) := by
    omega
  have hmove : moveSubject coll db subjectId d
      = (.ok (), { db with subjects := ⟨db.subjects.records.map (rewritten
          (reindexed 0 (swapAt (listSubjects coll db) i ((i : Int) + d).toNat))),
          db.subjects.nextKey⟩ }) := by
    unfold moveSubject
    simp only [hi, if_neg hguard]
    change commitOrAbort db ((putAll subjectSchema db.subjects
      (reindexed 0 (swapAt (listSubjects coll db) i ((i : Int) + d).toNat))).map _) = _
    rw [hput]
    rfl
  rw [hmove]
  refine ⟨rfl, rfl, rfl, ?_⟩
  unfold listSubjects jsSort ObjectStore.getAll
  apply insertionSort_eq_of_perm
  · have := (hperm.symm.map (rewritten
      (reindexed 0 (swapAt (listSubjects coll db) i ((i : Int) + d).toNat))))
    rw [rewritten_reindexed _ 0 hnd] at this
    exact this
  · exact reindexed_sorted coll _ 0

/-- C10. For well-formed subjects and a subject at position i of the
listSubjects order with 0 <= i+d < n: moveSubject is fulfilled and afterwards
listSubjects shows sortOrder 0, 1, ..., n-1 in this order and, apart from
sortOrder, the former list with the entries at positions i and i+d exchanged
(the moved subject is at position i+d, the subject formerly there is at
position i, every other subject keeps its position); units and reviews are
unchanged. If
the id is unknown or i+d is out of range the database is unchanged. With
sortOrders 0, 1, 2, moving the subject at index 1 up puts it first. -/
theorem moveSubject_swaps (coll : String → String → Int) (db : Db)
    (hwf : db.subjects.WF subjectSchema) (subjectId : Nat) (d : Int) :
    (∀ i : Nat, (listSubjects coll db).findIdx? (fun s => s.id == subjectId) = some i →
      0 ≤ (i : Int) + d → (i : Int) + d < (listSubjects coll db).length →
      (moveSubject coll db subjectId d).1 = .ok () ∧
      (listSubjects coll (moveSubject coll db subjectId d).2).map (fun s => s.sortOrder)
        = (List.range (listSubjects coll db).length).map (fun (k : Nat) => some (k : Int)) ∧
      (listSubjects coll (moveSubject coll db subjectId d).2).map
          (fun s => (s.id, s.name, s.createdAt))
        = swapAt ((listSubjects coll db).map (fun s => (s.id, s.name, s.createdAt)))
            i ((i : Int) + d).toNat ∧
      (∀ k : Nat,
        ((listSubjects coll (moveSubject coll db subjectId d).2).map
            (fun s => (s.id, s.name, s.createdAt)))[k]?
          = if k = ((i : Int) + d).toNat then
              ((listSubjects coll db).map (fun s => (s.id, s.name, s.createdAt)))[i]?
            else if k = i then
              ((listSubjects coll db).map
                (fun s => (s.id, s.name, s.createdAt)))[((i : Int) + d).toNat]?
            else ((listSubjects coll db).map (fun s => (s.id, s.name, s.createdAt)))[k]?) ∧
      (moveSubject coll db subjectId d).2.units = db.units ∧
      (moveSubject coll db subjectId d).2.reviews = db.reviews) ∧
    ((listSubjects coll db).findIdx? (fun s => s.id == subjectId) = none →
      moveSubject coll db subjectId d = (.ok (), db)) ∧
    (∀ i : Nat, (listSubjects coll db).findIdx? (fun s => s.id == subjectId) = some i →
      ((i : Int) + d < 0 ∨ ((listSubjects coll db).length : Int) ≤ (i : Int) + d) →
      moveSubject coll db subjectId d = (.ok (), db)) ∧
    (listSubjects (fun _ _ => 0) (moveSubject (fun _ _ => 0) threeSubjectsDb 2 (-1)).2).map
        (fun s => (s.id, s.sortOrder))
      = [(2, some 0), (1, some 1), (3, some 2)] := by
  refine ⟨?_, ?_, ?_, by decide⟩
  · intro i hi h0 h1
    obtain ⟨e1, e2, e3, e4⟩ := moveSubject_apply coll db hwf subjectId d i hi h0 h1
    have hfields : (listSubjects coll (moveSubject coll db subjectId d).2).map
          (fun s => (s.id, s.name, s.createdAt))
        = swapAt ((listSubjects coll db).map (fun s => (s.id, s.name, s.createdAt)))
            i ((i : Int) + d).toNat := by
      rw [e4, reindexed_fields, swapAt_map]
    refine ⟨e1, ?_, hfields, ?_, e2, e3⟩
    · rw [e4, reindexed_sortOrder, List.range_eq_range', (swapAt_perm _ _ _).length_eq]
    · intro k
      rw [hfields]
      apply swapAt_getElem?
      · rw [List.length_map]
        exact findIdx?_lt _ _ i hi
      · rw [List.length_map]
        omega
  · intro hnone
    unfold moveSubject
    simp only [hnone]
  · intro i hi hout
    have hguard : (i : Int) + d < 0 ∨ (i : Int) + d ≥ (listSubjects coll db).length := by
      omega
    unfold moveSubject
    simp only [hi, if_pos hguard]

/-! ## Calendar arithmetic -/

theorem yoe_bounds (doe : Int) (h0 : 0 ≤ doe) (h1 : doe < 146097) :
    0 ≤ (doe - doe / 1460 + doe / 36524 - doe / 146096) / 365 ∧
    (doe - doe / 1460 + doe / 36524 - doe / 146096) / 365 ≤ 399 := by
  omega

theorem doy_bounds (doe yoe : Int) (h0 : 0 ≤ doe) (h1 : doe < 146097)
    (hy : yoe = (doe - doe / 1460 + doe / 36524 - doe / 146096) / 365) :
    0 ≤ doe - (365 * yoe + yoe / 4 - yoe / 100) ∧
    doe - (365 * yoe + yoe / 4 - yoe / 100) ≤ 366 := by
  have hq2 : doe / 36524 = 0 ∨ doe / 36524 = 1 ∨ doe / 36524 = 2 ∨ doe / 36524 = 3
      ∨ doe / 36524 = 4 := by omega
  have hq3 : doe / 146096 = 0 ∨ doe / 146096 = 1 := by omega
  have hy100 : yoe / 100 = 0 ∨ yoe / 100 = 1 ∨ yoe / 100 = 2 ∨ yoe / 100 = 3 := by omega
  rcases hq2 with h | h | h | h | h <;> rcases hq3 with hb | hb <;>
    rcases hy100 with hc | hc | hc | hc <;> omega

theorem daysFromCivil_civilFromDays (z : Int) :
    daysFromCivil (civilFromDays z).1 (civilFromDays z).2.1 (civilFromDays z).2.2 = z := by
  have hdoe0 : 0 ≤ (z + 719468) - (z + 719468) / 146097 * 146097 := by omega
  have hdoe1 : (z + 719468) - (z + 719468) / 146097 * 146097 < 146097 := by omega
  obtain ⟨hy0, hy1⟩ := yoe_bounds _ hdoe0 hdoe1
  obtain ⟨hd0, hd1⟩ := doy_bounds _ _ hdoe0 hdoe1 rfl
  simp only [daysFromCivil, civilFromDays]
  generalize hera : (z + 719468) / 146097 = era at *
  generalize hdoe : z + 719468 - era * 146097 = doe at *
  generalize hyoe : (doe - doe / 1460 + doe / 36524 - doe / 146096) / 365 = yoe at *
  generalize hdoy : doe - (365 * yoe + yoe / 4 - yoe / 100) = doy at *
  clear hyoe hera
  generalize hmp : (5 * doy + 2) / 153 = mp at *
  have hmp0 : 0 ≤ mp := by omega
  have hmp1 : mp ≤ 11 := by omega
  have e1 : (yoe + era * 400) / 400 = era := by omega
  have e2 : (yoe + era * 400 + 1 - 1) / 400 = era := by omega
  have e4 : yoe + era * 400 - era * 400 = yoe := by omega
  have e5 : yoe + era * 400 + 1 - 1 - era * 400 = yoe := by omega
  by_cases hlt : mp < 10
  · have hm : ¬ (mp + 3 ≤ 2) := by omega
    have e3 : (mp + 3 + 9) % 12 = mp := by omega
    simp only [if_pos hlt, if_neg hm, e1, e3, e4]
    omega
  · have hm : mp - 9 ≤ 2 := by omega
    have e3 : (mp - 9 + 9) % 12 = mp := by omega
    simp only [if_neg hlt, if_pos hm, e2, e3, e5]
    omega

theorem daysFromCivil_linear (y m d : Int) :
    daysFromCivil y m d = daysFromCivil y m 1 + d - 1 := by
  simp only [daysFromCivil]
  omega

/-! ## A host with a constant offset from UTC -/

/-- In a zone with a constant offset, `setDate(getDate() + k)` moves a time
value by exactly `k` days. -/
theorem setDate_fixedZone (offset t k : Int) :
    setDate (fixedZone offset) t (getDate (fixedZone offset) t + k) = t + k * msPerDay := by
  have hrt := daysFromCivil_civilFromDays ((t + offset) / msPerDay)
  have hlin := daysFromCivil_linear (civilFromDays ((t + offset) / msPerDay)).1
    (civilFromDays ((t + offset) / msPerDay)).2.1 (civilFromDays ((t + offset) / msPerDay)).2.2
  have hdm := Int.ediv_add_emod (t + offset) msPerDay
  simp only [setDate, getDate, localTime, utcOfLocal, fixedZone, makeDay]
  generalize (civilFromDays ((t + offset) / msPerDay)).2.2 = dd at *
  generalize daysFromCivil (civilFromDays ((t + offset) / msPerDay)).1
    (civilFromDays ((t + offset) / msPerDay)).2.1 1 = first at *
  rw [hlin] at hrt
  have e : first + (dd + k) - 1 = (t + offset) / msPerDay + k := by omega
  rw [e, add_mul]
  generalize (t + offset) / msPerDay = q at *
  generalize (t + offset) % msPerDay = r at *
  rw [mul_comm] at hdm
  omega

/-- A month has at most 31 days. -/
theorem daysInMonth_le (y m : Nat) : daysInMonth y m ≤ 31 := by
  unfold daysInMonth
  split
  · split <;> omega
  · split
    · omega
    · split <;> omega

/-- The text of a calendar date is parsed as midnight UTC of that date. -/
theorem dateParse_valid (d : CalDate) (h : d.Valid) :
    dateParse d = some (daysFromCivil d.year d.month d.day * msPerDay) := by
  obtain ⟨h1, h2, h3, h4, h5⟩ := h
  have h6 := daysInMonth_le d.year d.month
  unfold dateParse
  rw [if_pos ⟨h1, h2, h3, h4, Nat.le_trans h5 h6⟩, daysFromCivil_linear d.year d.month d.day]

/-- In a host whose zone has a constant offset from UTC, a status computed for
a unit with reviews names as lastDate a stored text that parses as a date, and
nextDue is the UTC rendering of the instant intervalDays(lastNo) days after the
parsed midnight. -/
theorem computeUnitStatus_fixedZone (offset : Int) (db : Db) (unit : StudyUnit)
    (st : UnitStatus) (hrev : listReviewsByUnit db unit.id ≠ [])
    (h : computeUnitStatus (fixedZone offset) db unit = .ok st) :
    ∃ (d : CalDate) (t : Int), dateParse d = some t ∧ st.lastDate = d.toIso ∧
      st.nextDue = toISOStringSlice10 (t + intervalDays st.lastNo * msPerDay) := by
  unfold computeUnitStatus at h
  have hne : (listReviewsByUnit db unit.id).isEmpty = false := by
    cases hl : listReviewsByUnit db unit.id with
    | nil => exact absurd hl hrev
    | cons _ _ => rfl
  simp only [hne, Bool.false_eq_true, if_false] at h
  split at h
  · cases h
  · rename_i c _
    split at h
    · cases h
    · rename_i t ht
      injection h with h
      subst h
      refine ⟨c.doneDate, t, ht, rfl, ?_⟩
      simp only
      rw [setDate_fixedZone]

/-! ## Instances of the theorems with hypotheses -/

/-- Witness for C2: a well-formed store, its key generator below 2^53, in which a
second review number 2 of unit 1 is rejected. -/
theorem insertReview_duplicateKey_witness :
    sampleDb.reviews.WF reviewSchema ∧ sampleDb.reviews.nextKey ≤ keyLimit ∧
    (insertReview sampleDb 1 2 ⟨2024, 5, 5⟩ "t9").1 ≠ .ok () :=
  ⟨⟨by decide, by decide, by decide⟩, by decide,
    ((insertReview_duplicateKey sampleDb 1 2 ⟨2024, 5, 5⟩ "t9"
      ⟨by decide, by decide, by decide⟩).1 (by decide)).1.2
      ⟨⟨2, 1, 2, ⟨2024, 1, 2⟩, "t2"⟩, by decide, rfl, Or.inl rfl⟩⟩

/-- Witness for C4: deleting unit 1 of a well-formed store leaves it no reviews. -/
theorem deleteUnit_cascade_witness :
    sampleDb.reviews.WF reviewSchema ∧ listReviewsByUnit (deleteUnit sampleDb 1).2 1 = [] :=
  ⟨⟨by decide, by decide, by decide⟩,
    (deleteUnit_cascade sampleDb 1 ⟨by decide, by decide, by decide⟩).2.2.2.2.2.2.1⟩

/-- Witness for C5: a state reached by two insertions, and its two reviews. -/
theorem reachable_reviews_unique_witness :
    ReviewReachable
        (insertReview (insertReview Db.empty 1 1 ⟨2024, 1, 1⟩ "t1").2 1 2 ⟨2024, 1, 2⟩ "t2").2 ∧
    (Review.mk 1 1 1 ⟨2024, 1, 1⟩ "t1").id ≠ (Review.mk 2 1 2 ⟨2024, 1, 2⟩ "t2").id :=
  ⟨ReviewReachable.insertReview _ 1 2 ⟨2024, 1, 2⟩ "t2"
      (ReviewReachable.insertReview _ 1 1 ⟨2024, 1, 1⟩ "t1" ReviewReachable.empty),
    (reachable_reviews_unique
      (insertReview (insertReview Db.empty 1 1 ⟨2024, 1, 1⟩ "t1").2 1 2 ⟨2024, 1, 2⟩ "t2").2
      (ReviewReachable.insertReview _ 1 2 ⟨2024, 1, 2⟩ "t2"
        (ReviewReachable.insertReview _ 1 1 ⟨2024, 1, 1⟩ "t1" ReviewReachable.empty))
      ⟨1, 1, 1, ⟨2024, 1, 1⟩, "t1"⟩ (by decide) ⟨2, 1, 2, ⟨2024, 1, 2⟩, "t2"⟩ (by decide)
      (by decide)).1⟩

/-- Witness for C8: a consistent snapshot, listed with id 2 first, is imported. -/
theorem import_then_export_witness :
    ConsistentArray subjectSchema [⟨2, "B", some 0, "t2"⟩, ⟨1, "A", some 1, "t1"⟩] ∧
    ConsistentArray unitSchema [⟨1, 2, "1-1", "", "t0"⟩] ∧
    ConsistentArray reviewSchema [⟨1, 1, 1, ⟨2024, 1, 1⟩, "t1"⟩] ∧
    (importJsonOverwrite sampleDb (some ⟨some [⟨2, "B", some 0, "t2"⟩, ⟨1, "A", some 1, "t1"⟩],
      some [⟨1, 2, "1-1", "", "t0"⟩], some [⟨1, 1, 1, ⟨2024, 1, 1⟩, "t1"⟩]⟩)).1 = .ok () :=
  ⟨⟨by decide, by decide⟩, ⟨by decide, by decide⟩, ⟨by decide, by decide⟩,
    (import_then_export sampleDb [⟨2, "B", some 0, "t2"⟩, ⟨1, "A", some 1, "t1"⟩]
      [⟨1, 2, "1-1", "", "t0"⟩] [⟨1, 1, 1, ⟨2024, 1, 1⟩, "t1"⟩] "now"
      ⟨by decide, by decide⟩ ⟨by decide, by decide⟩ ⟨by decide, by decide⟩).1⟩

/-- Witness for C9: a code with blanks around it finds the existing unit 2. -/
theorem getOrCreateUnit_idempotent_witness :
    sampleDb.units.WF unitSchema ∧
    getOrCreateUnit sampleDb 1 " 1-2 " "t9" = (.ok 2, sampleDb) :=
  ⟨⟨by decide, by decide, by decide⟩,
    (getOrCreateUnit_idempotent sampleDb 1 " 1-2 " "t9" ⟨by decide, by decide, by decide⟩).1
      ⟨2, 1, "1-2", "", "t0"⟩ (by decide) rfl (by decide)⟩

/-- Witness for C10: moving the second of three subjects up is fulfilled. -/
theorem moveSubject_swaps_witness :
    threeSubjectsDb.subjects.WF subjectSchema ∧
    (moveSubject (fun _ _ => 0) threeSubjectsDb 2 (-1)).1 = .ok () :=
  ⟨⟨by decide, by decide, by decide⟩,
    ((moveSubject_swaps (fun _ _ => 0) threeSubjectsDb ⟨by decide, by decide, by decide⟩
      2 (-1)).1 1 (by decide) (by decide) (by decide)).1⟩

/-! ## `parseEntries`: tokens and codes -/

theorem splitRuns_sep_cons (isSep : Char → Bool) (x d : Char) (ds : List Char)
    (hx : isSep x = true) :
    splitRuns isSep (x :: d :: ds)
      = if isSep d then splitRuns isSep (d :: ds) else [] :: splitRuns isSep (d :: ds) := by
  conv_lhs => rw [splitRuns]
  rw [if_pos hx]

theorem splitRuns_sep_nil (isSep : Char → Bool) (x : Char) (hx : isSep x = true) :
    splitRuns isSep [x] = [[], []] := by
  rw [splitRuns, if_pos hx]
  rfl

theorem splitRuns_not_sep (isSep : Char → Bool) (x : Char) (xs : List Char)
    (hx : ¬ isSep x = true) :
    splitRuns isSep (x :: xs)
      = match splitRuns isSep xs with
        | [] => [[x]]
        | p :: ps => (x :: p) :: ps := by
  cases xs with
  | nil => simp [splitRuns, hx]
  | cons d ds =>
    conv_lhs => rw [splitRuns]
    rw [if_neg hx]

theorem splitRuns_no_sep (isSep : Char → Bool) (l : List Char) :
    ∀ q ∈ splitRuns isSep l, ∀ c ∈ q, isSep c = false := by
  induction l with
  | nil =>
    intro q hq c hc
    simp only [splitRuns, List.mem_singleton] at hq
    subst hq
    simp at hc
  | cons x xs ih =>
    intro q hq c hc
    by_cases hx : isSep x = true
    · have hq' : q = [] ∨ q ∈ splitRuns isSep xs := by
        cases xs with
        | nil =>
          rw [splitRuns_sep_nil isSep x hx] at hq
          simp only [List.mem_cons, List.mem_singleton, List.not_mem_nil, or_false, or_self] at hq
          exact Or.inl hq
        | cons d ds =>
          rw [splitRuns_sep_cons isSep x d ds hx] at hq
          split at hq
          · exact Or.inr hq
          · rcases List.mem_cons.1 hq with h | h
            · exact Or.inl h
            · exact Or.inr h
      rcases hq' with h | h
      · subst h
        simp at hc
      · exact ih q h c hc
    · have hxf : isSep x = false := by simpa using hx
      rw [splitRuns_not_sep isSep x xs hx] at hq
      cases hs : splitRuns isSep xs with
      | nil =>
        rw [hs] at hq
        simp only [List.mem_singleton] at hq
        subst hq
        simp only [List.mem_singleton] at hc
        rw [hc]
        exact hxf
      | cons p ps =>
        rw [hs] at hq ih
        simp only [List.mem_cons] at hq
        rcases hq with h | h
        · subst h
          rcases List.mem_cons.1 hc with h1 | h1
          · rw [h1]; exact hxf
          · exact ih p (List.mem_cons_self _ _) c h1
        · exact ih q (List.mem_cons_of_mem _ h) c hc

theorem trimChars_subset (l : List Char) : ∀ c ∈ trimChars l, c ∈ l := by
  intro c hc
  unfold trimChars at hc
  rw [List.mem_reverse] at hc
  have h1 := (List.dropWhile_sublist isJsSpace).subset hc
  rw [List.mem_reverse] at h1
  exact (List.dropWhile_sublist isJsSpace).subset h1

theorem dropWhile_eq_self_of_forall {α : Type} (p : α → Bool) (l : List α)
    (h : ∀ c ∈ l, p c = false) : l.dropWhile p = l := by
  cases l with
  | nil => rfl
  | cons x xs => simp [List.dropWhile_cons, h x (List.mem_cons_self _ _)]

theorem trimChars_eq_self (l : List Char) (h : ∀ c ∈ l, isJsSpace c = false) :
    trimChars l = l := by
  unfold trimChars
  rw [dropWhile_eq_self_of_forall isJsSpace l h,
    dropWhile_eq_self_of_forall isJsSpace l.reverse (fun c hc => h c (List.mem_reverse.1 hc)),
    List.reverse_reverse]

/-- A token of `parseEntries` is not empty and has no separator character. -/
theorem entryTokens_spec (text : String) :
    ∀ p ∈ entryTokens text, p ≠ [] ∧ ∀ c ∈ p, isEntrySep c = false := by
  intro p hp
  unfold entryTokens at hp
  rw [List.mem_filter, List.mem_map] at hp
  obtain ⟨⟨q, hq, rfl⟩, hne⟩ := hp
  refine ⟨?_, ?_⟩
  · intro h
    rw [h] at hne
    simp at hne
  · intro c hc
    exact splitRuns_no_sep isEntrySep _ q hq c (trimChars_subset q c hc)

theorem withIndex_snd_mem {α : Type} (l : List α) :
    ∀ (k : Nat) (p : Nat × α), p ∈ withIndex k l → p.2 ∈ l := by
  induction l with
  | nil => intro k p h; simp [withIndex] at h
  | cons x xs ih =>
    intro k p h
    simp only [withIndex, List.mem_cons] at h
    rcases h with rfl | h
    · exact List.mem_cons_self _ _
    · exact List.mem_cons_of_mem _ (ih (k + 1) p h)

theorem firstOccurrencesFrom_subset (pre toks : List Entry) :
    ∀ e ∈ firstOccurrencesFrom pre toks, e ∈ toks := by
  intro e he
  unfold firstOccurrencesFrom at he
  rw [List.mem_map] at he
  obtain ⟨p, hp, rfl⟩ := he
  exact withIndex_snd_mem toks _ p (List.mem_filter.1 hp).1

/-- Every entry of `parseEntries` is the entry of one of its tokens. -/
theorem parseEntries_mem (text : String) :
    ∀ e ∈ parseEntries text, ∃ p ∈ entryTokens text, e = tokenEntry p := by
  intro e he
  unfold parseEntries at he
  rw [foldl_parseStep (entryTokens text) [] [] [] (by simp), List.nil_append] at he
  have := firstOccurrencesFrom_subset [] _ e he
  rw [List.mem_map] at this
  obtain ⟨p, hp, rfl⟩ := this
  exact ⟨p, hp, rfl⟩

theorem splitEach_length (isSep : Char → Bool) (l : List Char) :
    (splitEach isSep l).length = l.countP isSep + 1 := by
  induction l with
  | nil => rfl
  | cons x xs ih =>
    rw [splitEach, List.countP_cons]
    by_cases hx : isSep x = true
    · rw [if_pos hx, if_pos hx, List.length_cons, ih]
    · rw [if_neg hx, if_neg hx]
      cases hs : splitEach isSep xs with
      | nil => rw [hs] at ih; simp at ih
      | cons p ps => rw [hs] at ih; simpa using ih

theorem splitEach_head (isSep : Char → Bool) (l : List Char) :
    (splitEach isSep l).headD [] = l.takeWhile (fun c => !isSep c) := by
  induction l with
  | nil => rfl
  | cons x xs ih =>
    rw [splitEach, List.takeWhile_cons]
    by_cases hx : isSep x = true
    · simp [hx]
    · have hxf : isSep x = false := by simpa using hx
      rw [if_neg hx]
      cases hs : splitEach isSep xs with
      | nil =>
        have := splitEach_length isSep xs
        rw [hs] at this
        simp at this
      | cons p ps =>
        rw [hs] at ih
        simp only [List.headD_cons] at ih
        simp [hxf, ih]

/-- The code that `parseEntries` takes from a token: the text before the first
title separator, trimmed, or the whole token when it has none. -/
theorem tokenEntry_code (p : List Char) :
    (tokenEntry p).code
      = if ∃ c ∈ p, isTitleSep c = true then
          String.mk (trimChars (p.takeWhile (fun c => !isTitleSep c)))
        else String.mk p := by
  have hlen : (splitEach isTitleSep p).length ≥ 2 ↔ ∃ c ∈ p, isTitleSep c = true := by
    rw [splitEach_length, ← List.countP_pos_iff]
    omega
  unfold tokenEntry tokenCodeTitle
  simp only
  by_cases h : ∃ c ∈ p, isTitleSep c = true
  · rw [if_pos (hlen.2 h), if_pos h, splitEach_head]
  · rw [if_neg (fun hh => h (hlen.1 hh)), if_neg h]

/-- The code of a token consists of characters of the token. -/
theorem tokenEntry_code_subset (p : List Char) :
    ∀ c ∈ (tokenEntry p).code.data, c ∈ p := by
  intro c hc
  rw [tokenEntry_code] at hc
  split at hc
  · exact List.takeWhile_subset _ (trimChars_subset _ c hc)
  · exact hc

/-- The code of a non-empty token without white space is empty exactly when the
token starts with a title separator. -/
theorem tokenEntry_code_empty (p : List Char) (hne : p ≠ [])
    (hsp : ∀ c ∈ p, isJsSpace c = false) :
    (tokenEntry p).code = "" ↔ ∃ c rest, p = c :: rest ∧ isTitleSep c = true := by
  rw [tokenEntry_code]
  have hmk : ∀ l : List Char, String.mk l = "" ↔ l = [] := by
    intro l
    constructor
    · intro h
      exact congrArg String.data h
    · intro h
      rw [h]
  cases p with
  | nil => exact absurd rfl hne
  | cons x xs =>
    by_cases hx : isTitleSep x = true
    · have hex : ∃ c ∈ x :: xs, isTitleSep c = true := ⟨x, List.mem_cons_self _ _, hx⟩
      rw [if_pos hex, hmk]
      constructor
      · intro _
        exact ⟨x, xs, rfl, hx⟩
      · intro _
        simp [List.takeWhile_cons, hx, trimChars]
    · constructor
      · intro h
        exfalso
        split at h
        · rw [hmk, trimChars_eq_self _ (fun c hc => hsp c (List.takeWhile_subset _ hc))] at h
          simp [List.takeWhile_cons, hx] at h
        · rw [hmk] at h
          cases h
      · rintro ⟨c, rest, hcr, hc⟩
        injection hcr with h1 h2
        subst h1
        exact absurd hc hx

theorem splitRuns_eq_self (isSep : Char → Bool) (b : List Char)
    (hb : ∀ c ∈ b, isSep c = false) : splitRuns isSep b = [b] := by
  induction b with
  | nil => rfl
  | cons x xs ih =>
    have hx : ¬ isSep x = true := by
      rw [hb x (List.mem_cons_self _ _)]
      exact Bool.false_ne_true
    rw [splitRuns_not_sep isSep x xs hx, ih (fun c hc => hb c (List.mem_cons_of_mem _ hc))]

theorem splitRuns_append_sep (isSep : Char → Bool) (a b : List Char) (s : Char)
    (ha : ∀ c ∈ a, isSep c = false) (hs : isSep s = true) (hne : b ≠ [])
    (hb : ∀ c ∈ b, isSep c = false) : splitRuns isSep (a ++ s :: b) = [a, b] := by
  induction a with
  | nil =>
    cases b with
    | nil => exact absurd rfl hne
    | cons d ds =>
      have hd : ¬ isSep d = true := by
        rw [hb d (List.mem_cons_self _ _)]
        exact Bool.false_ne_true
      rw [List.nil_append, splitRuns_sep_cons isSep s d ds hs, if_neg hd,
        splitRuns_eq_self isSep (d :: ds) hb]
  | cons x xs ih =>
    have hx : ¬ isSep x = true := by
      rw [ha x (List.mem_cons_self _ _)]
      exact Bool.false_ne_true
    rw [List.cons_append, splitRuns_not_sep isSep x _ hx,
      ih (fun c hc => ha c (List.mem_cons_of_mem _ hc))]

theorem not_space_of_not_entrySep (c : Char) (h : isEntrySep c = false) :
    isJsSpace c = false := by
  unfold isEntrySep at h
  simp only [Bool.or_eq_false_iff] at h
  exact h.2

/-- The entry of a token without title separator: the token as code, no title. -/
theorem tokenEntry_plain (p : List Char) (h : ∀ c ∈ p, isTitleSep c = false) :
    tokenEntry p = ⟨String.mk p, none⟩ := by
  have hlen : ¬ (splitEach isTitleSep p).length ≥ 2 := by
    have h0 : p.countP isTitleSep = 0 := by
      rw [List.countP_eq_zero]
      intro c hc
      rw [h c hc]
      exact Bool.false_ne_true
    rw [splitEach_length, h0]
    omega
  unfold tokenEntry tokenCodeTitle
  simp only [if_neg hlen, if_true]

/-- Two different codes separated only by the ideographic comma U+3001 yield
two entries. -/
theorem parseEntries_two_codes (a b : List Char) (ha : a ≠ []) (hb : b ≠ []) (hab : a ≠ b)
    (hsa : ∀ c ∈ a, isEntrySep c = false ∧ isTitleSep c = false)
    (hsb : ∀ c ∈ b, isEntrySep c = false ∧ isTitleSep c = false) :
    parseEntries (String.mk (a ++ '、' :: b)) = [⟨String.mk a, none⟩, ⟨String.mk b, none⟩] := by
  have hspa : ∀ c ∈ a, isJsSpace c = false :=
    fun c hc => not_space_of_not_entrySep c (hsa c hc).1
  have hspb : ∀ c ∈ b, isJsSpace c = false :=
    fun c hc => not_space_of_not_entrySep c (hsb c hc).1
  have hsp : ∀ c ∈ a ++ '、' :: b, isJsSpace c = false := by
    intro c hc
    rcases List.mem_append.1 hc with h | h
    · exact hspa c h
    · rcases List.mem_cons.1 h with h | h
      · rw [h]; decide
      · exact hspb c h
  have htok : entryTokens (String.mk (a ++ '、' :: b)) = [a, b] := by
    unfold entryTokens
    simp only
    rw [trimChars_eq_self _ hsp,
      splitRuns_append_sep isEntrySep a b '、' (fun c hc => (hsa c hc).1) (by decide) hb
        (fun c hc => (hsb c hc).1)]
    simp only [List.map_cons, List.map_nil, trimChars_eq_self a hspa, trimChars_eq_self b hspb]
    cases a with
    | nil => exact absurd rfl ha
    | cons x xs =>
      cases b with
      | nil => exact absurd rfl hb
      | cons y ys => rfl
  have hne : ¬ String.mk b = String.mk a := by
    intro h
    exact hab (congrArg String.data h).symm
  unfold parseEntries
  rw [htok]
  simp only [List.foldl_cons, List.foldl_nil, parseStep,
    tokenEntry_plain a (fun c hc => (hsa c hc).2), tokenEntry_plain b (fun c hc => (hsb c hc).2)]
  simp [hne]

/-- C11 (amended). parseEntries splits its input on ASCII commas, ideographic
commas (U+3001) and runs of white space and discards empty tokens: for every
input text, every returned entry is the entry of a non-empty token without
separator character, its code contains no ASCII comma, no ideographic comma and
no white space, and its code is empty exactly when the token starts with one of
the title separators (colon, full-width colon, equals sign); two different
codes separated only by an ideographic comma yield two entries. -/
theorem parseEntries_codes :
    (∀ text : String, ∀ e ∈ parseEntries text,
      (∀ c ∈ e.code.data, c ≠ ',' ∧ c ≠ '、' ∧ isJsSpace c = false) ∧
      ∃ p ∈ entryTokens text, p ≠ [] ∧ (∀ c ∈ p, isEntrySep c = false) ∧ e = tokenEntry p ∧
        (e.code = "" ↔ ∃ c rest, p = c :: rest ∧ isTitleSep c = true)) ∧
    (∀ a b : List Char, a ≠ [] → b ≠ [] → a ≠ b →
      (∀ c ∈ a ++ b, isEntrySep c = false ∧ isTitleSep c = false) →
      parseEntries (String.mk (a ++ '、' :: b)) = [⟨String.mk a, none⟩, ⟨String.mk b, none⟩]) ∧
    parseEntries "1-1、2-3" = [⟨"1-1", none⟩, ⟨"2-3", none⟩] := by
  refine ⟨?_, ?_, by decide⟩
  · intro text e he
    obtain ⟨p, hp, rfl⟩ := parseEntries_mem text e he
    obtain ⟨hne, hsep⟩ := entryTokens_spec text p hp
    refine ⟨?_, p, hp, hne, hsep, rfl,
      tokenEntry_code_empty p hne (fun c hc => not_space_of_not_entrySep c (hsep c hc))⟩
    intro c hc
    have h := hsep c (tokenEntry_code_subset p c hc)
    unfold isEntrySep at h
    simp only [Bool.or_eq_false_iff, beq_eq_false_iff_ne, ne_eq] at h
    exact ⟨h.1.1, h.1.2, h.2⟩
  · intro a b ha hb hab h
    exact parseEntries_two_codes a b ha hb hab
      (fun c hc => h c (List.mem_append_left _ hc))
      (fun c hc => h c (List.mem_append_right _ hc))

/-- Counterexample to C11 as stated: the text ":x" yields an entry with an empty
code, and two codes separated only by the full-width comma U+FF0C yield one
entry whose code contains that comma. -/
theorem parseEntries_empty_code :
    (∃ e ∈ parseEntries ":x", e.code = "") ∧
    parseEntries ":x" = [⟨"", some "x"⟩] ∧
    parseEntries "1-1，2-3" = [⟨"1-1，2-3", none⟩] := by
  refine ⟨⟨⟨"", some "x"⟩, by decide, rfl⟩, by decide, by decide⟩

/-- Witness for C11: the codes a and b around an ideographic comma, and a
character of the code of the first entry of "1-1:入門, 2-3". -/
theorem parseEntries_codes_witness :
    (['a'] : List Char) ≠ ['b'] ∧
    parseEntries (String.mk (['a'] ++ '、' :: ['b']))
      = [⟨String.mk ['a'], none⟩, ⟨String.mk ['b'], none⟩] ∧
    ('1' ≠ ',' ∧ '1' ≠ '、' ∧ isJsSpace '1' = false) :=
  ⟨by decide,
    parseEntries_codes.2.1 ['a'] ['b'] (by decide) (by decide) (by decide) (by decide),
    (parseEntries_codes.1 "1-1:入門, 2-3" ⟨"1-1", some "入門"⟩ (by decide)).1 '1' (by decide)⟩

/-! ## `computeUnitStatus`: the last review -/

theorem foldl_max_ge (xs : List Nat) : ∀ a : Nat, a ≤ xs.foldl max a := by
  induction xs with
  | nil => intro a; exact Nat.le_refl _
  | cons x xs ih =>
    intro a
    exact Nat.le_trans (Nat.le_max_left a x) (ih (max a x))

theorem le_foldl_max (xs : List Nat) : ∀ (a : Nat), ∀ x ∈ xs, x ≤ xs.foldl max a := by
  induction xs with
  | nil => intro a x hx; simp at hx
  | cons y ys ih =>
    intro a x hx
    rcases List.mem_cons.1 hx with rfl | h
    · exact Nat.le_trans (Nat.le_max_right a x) (foldl_max_ge ys (max a x))
    · exact ih (max a y) x h

theorem foldl_max_mem (xs : List Nat) : ∀ a : Nat, xs.foldl max a = a ∨ xs.foldl max a ∈ xs := by
  induction xs with
  | nil => intro a; exact Or.inl rfl
  | cons y ys ih =>
    intro a
    rcases ih (max a y) with h | h
    · rw [List.foldl_cons, h]
      rcases Nat.le_total a y with hay | hya
      · rw [Nat.max_eq_right hay]
        exact Or.inr (List.mem_cons_self _ _)
      · rw [Nat.max_eq_left hya]
        exact Or.inl rfl
    · exact Or.inr (List.mem_cons_of_mem _ h)

/-- `Math.max(...xs)` is at least every element. -/
theorem le_mathMax (xs : List Nat) : ∀ x ∈ xs, x ≤ mathMax xs :=
  le_foldl_max xs 0

/-- `Math.max(...xs)` of a non-empty array is one of its elements. -/
theorem mathMax_mem (xs : List Nat) (hne : xs ≠ []) : mathMax xs ∈ xs := by
  rcases foldl_max_mem xs 0 with h | h
  · cases xs with
    | nil => exact absurd rfl hne
    | cons y ys =>
      have hy : y ≤ mathMax (y :: ys) := le_mathMax _ y (List.mem_cons_self _ _)
      have h0 : mathMax (y :: ys) = 0 := h
      have : y = 0 := by omega
      rw [h0, this]
      exact List.mem_cons_self _ _
  · exact h

theorem jsSort_perm {α : Type} (cmp : α → α → Int) (l : List α) : (jsSort cmp l).Perm l :=
  List.perm_insertionSort _ _

theorem mem_listReviewsByUnit (db : Db) (unitId : Nat) (r : Review) :
    r ∈ listReviewsByUnit db unitId ↔ r ∈ db.reviews.records ∧ r.unitId = unitId := by
  unfold listReviewsByUnit ObjectStore.getAll
  rw [(jsSort_perm _ _).mem_iff, List.mem_filter]
  simp

/-- The first element of an array sorted by descending id has the largest id. -/
theorem head_jsSort_desc (l : List Review) (c : Review)
    (h : (jsSort (fun a b => (b.id : Int) - a.id) l).head? = some c) :
    c ∈ l ∧ ∀ r ∈ l, r.id ≤ c.id := by
  haveI : IsTotal Review (cmpLe (fun a b => (b.id : Int) - a.id)) :=
    ⟨fun a b => by simp only [cmpLe]; omega⟩
  haveI : IsTrans Review (cmpLe (fun a b => (b.id : Int) - a.id)) :=
    ⟨fun a b c hab hbc => by simp only [cmpLe] at *; omega⟩
  have hsorted := List.sorted_insertionSort (cmpLe (fun a b : Review => (b.id : Int) - a.id)) l
  have hperm := jsSort_perm (fun a b : Review => (b.id : Int) - a.id) l
  unfold jsSort at h hperm
  cases hs : l.insertionSort (cmpLe (fun a b => (b.id : Int) - a.id)) with
  | nil => rw [hs] at h; simp at h
  | cons x xs =>
    rw [hs] at h hsorted hperm
    simp only [List.head?_cons, Option.some.injEq] at h
    subst h
    refine ⟨hperm.mem_iff.1 (List.mem_cons_self _ _), ?_⟩
    intro r hr
    rcases List.mem_cons.1 (hperm.mem_iff.2 hr) with rfl | hmem
    · exact Nat.le_refl _
    · have := List.rel_of_sorted_cons hsorted r hmem
      simp only [cmpLe] at this
      omega

/-- The candidate that `computeUnitStatus` selects for a unit with reviews: the
candidate list is not empty, and its first element is a review of the unit with
the largest review number and, among those, the largest id. -/
theorem candidate_exists (db : Db) (unitId : Nat)
    (hne : listReviewsByUnit db unitId ≠ []) :
    ∃ c, (jsSort (fun a b : Review => (b.id : Int) - a.id)
        ((listReviewsByUnit db unitId).filter (fun r => r.reviewNo
          == mathMax ((listReviewsByUnit db unitId).map (fun r => r.reviewNo))))).head? = some c ∧
      c ∈ db.reviews.records ∧ c.unitId = unitId ∧
      c.reviewNo = mathMax ((listReviewsByUnit db unitId).map (fun r => r.reviewNo)) ∧
      (∀ r ∈ db.reviews.records, r.unitId = unitId → r.reviewNo ≤ c.reviewNo) ∧
      (∀ r ∈ db.reviews.records, r.unitId = unitId → r.reviewNo = c.reviewNo → r.id ≤ c.id) := by
  generalize hrevs : listReviewsByUnit db unitId = revs at *
  have hmem : ∀ r, r ∈ revs ↔ r ∈ db.reviews.records ∧ r.unitId = unitId := by
    intro r
    rw [← hrevs]
    exact mem_listReviewsByUnit db unitId r
  have hmax := mathMax_mem (revs.map (fun r => r.reviewNo)) (by simpa using hne)
  obtain ⟨r0, hr0, hr0no⟩ := List.mem_map.1 hmax
  have hr0f : r0 ∈ revs.filter (fun r => r.reviewNo
      == mathMax (revs.map (fun r => r.reviewNo))) :=
    List.mem_filter.2 ⟨hr0, by simp [hr0no]⟩
  cases hh : (jsSort (fun a b : Review => (b.id : Int) - a.id)
      (revs.filter (fun r => r.reviewNo == mathMax (revs.map (fun r => r.reviewNo))))).head? with
  | none =>
    rw [List.head?_eq_none_iff] at hh
    have := (jsSort_perm (fun a b : Review => (b.id : Int) - a.id) _).mem_iff.2 hr0f
    rw [hh] at this
    simp at this
  | some c =>
    obtain ⟨hc, hcmax⟩ := head_jsSort_desc _ c hh
    rw [List.mem_filter] at hc
    have hcno : c.reviewNo = mathMax (revs.map (fun r => r.reviewNo)) := by simpa using hc.2
    refine ⟨c, rfl, ((hmem c).1 hc.1).1, ((hmem c).1 hc.1).2, hcno, ?_, ?_⟩
    · intro r hr hu
      rw [hcno]
      exact le_mathMax _ _ (List.mem_map_of_mem (fun r => r.reviewNo) ((hmem r).2 ⟨hr, hu⟩))
    · intro r hr hu hno
      exact hcmax r (List.mem_filter.2 ⟨(hmem r).2 ⟨hr, hu⟩, by simp [hno, hcno]⟩)

/-- C12 (amended). For a unit without reviews computeUnitStatus returns lastNo 0
with empty lastDate and nextDue. The selection from the candidate list never
fails (no TypeError). For a unit with at least one review there is a review c
of the unit whose reviewNo is the largest of the unit and whose id is the
largest among the reviews with that reviewNo; when the doneDate of c parses as
a date, as every calendar date does, computeUnitStatus returns
lastNo = c.reviewNo and lastDate = c.doneDate; when it does not, toISOString
throws a RangeError and nothing is returned. -/
theorem computeUnitStatus_last (tz : TimeZone) (db : Db) (unit : StudyUnit) :
    ((∀ r ∈ db.reviews.records, r.unitId ≠ unit.id) →
      computeUnitStatus tz db unit = .ok ⟨0, "", ""⟩) ∧
    computeUnitStatus tz db unit ≠ .error .typeError ∧
    ((∃ r ∈ db.reviews.records, r.unitId = unit.id) →
      ∃ c ∈ db.reviews.records, c.unitId = unit.id ∧
        (∀ r ∈ db.reviews.records, r.unitId = unit.id → r.reviewNo ≤ c.reviewNo) ∧
        (∀ r ∈ db.reviews.records, r.unitId = unit.id → r.reviewNo = c.reviewNo →
          r.id ≤ c.id) ∧
        ((∃ t, dateParse c.doneDate = some t) →
          ∃ st, computeUnitStatus tz db unit = .ok st ∧ st.lastNo = c.reviewNo ∧
            st.lastDate = c.doneDate.toIso) ∧
        (c.doneDate.Valid →
          ∃ st, computeUnitStatus tz db unit = .ok st ∧ st.lastNo = c.reviewNo ∧
            st.lastDate = c.doneDate.toIso) ∧
        (dateParse c.doneDate = none → computeUnitStatus tz db unit = .error .rangeError)) := by
  have hempty : listReviewsByUnit db unit.id = [] →
      computeUnitStatus tz db unit = .ok ⟨0, "", ""⟩ := by
    intro h
    unfold computeUnitStatus
    simp only [h, List.isEmpty_nil, if_true]
  have hfull : listReviewsByUnit db unit.id ≠ [] →
      ∃ c ∈ db.reviews.records, c.unitId = unit.id ∧
        (∀ r ∈ db.reviews.records, r.unitId = unit.id → r.reviewNo ≤ c.reviewNo) ∧
        (∀ r ∈ db.reviews.records, r.unitId = unit.id → r.reviewNo = c.reviewNo →
          r.id ≤ c.id) ∧
        ((∃ t, dateParse c.doneDate = some t) →
          ∃ st, computeUnitStatus tz db unit = .ok st ∧ st.lastNo = c.reviewNo ∧
            st.lastDate = c.doneDate.toIso) ∧
        (dateParse c.doneDate = none → computeUnitStatus tz db unit = .error .rangeError) := by
    intro hne
    obtain ⟨c, hhead, hc, hu, hno, hmax, hid⟩ := candidate_exists db unit.id hne
    have hnotempty : (listReviewsByUnit db unit.id).isEmpty = false := by
      cases hl : listReviewsByUnit db unit.id with
      | nil => exact absurd hl hne
      | cons _ _ => rfl
    refine ⟨c, hc, hu, hmax, hid, ?_, ?_⟩
    · rintro ⟨t, ht⟩
      refine ⟨⟨mathMax ((listReviewsByUnit db unit.id).map (fun r => r.reviewNo)),
        c.doneDate.toIso,
        toISOStringSlice10 (setDate tz t
          (getDate tz t + intervalDays (mathMax ((listReviewsByUnit db unit.id).map
                (fun r => r.reviewNo)))))⟩, ?_, hno.symm, rfl⟩
      unfold computeUnitStatus
      simp only [hnotempty, Bool.false_eq_true, if_false, hhead, ht]
    · intro hnone
      unfold computeUnitStatus
      simp only [hnotempty, Bool.false_eq_true, if_false, hhead, hnone]
  refine ⟨?_, ?_, ?_⟩
  · intro hnone
    apply hempty
    cases hl : listReviewsByUnit db unit.id with
    | nil => rfl
    | cons r rs =>
      have hr : r ∈ listReviewsByUnit db unit.id := by
        rw [hl]
        exact List.mem_cons_self _ _
      rw [mem_listReviewsByUnit] at hr
      exact absurd hr.2 (hnone r hr.1)
  · by_cases hl : listReviewsByUnit db unit.id = []
    · rw [hempty hl]
      intro h
      cases h
    · obtain ⟨c, _, _, _, _, hv, hi⟩ := hfull hl
      cases hp : dateParse c.doneDate with
      | some t =>
        obtain ⟨st, hst, _⟩ := hv ⟨t, hp⟩
        rw [hst]
        intro h
        cases h
      | none =>
        rw [hi hp]
        intro h
        cases h
  · rintro ⟨r, hr, hu⟩
    have hl : listReviewsByUnit db unit.id ≠ [] := by
      intro hl
      have : r ∈ listReviewsByUnit db unit.id := (mem_listReviewsByUnit db unit.id r).2 ⟨hr, hu⟩
      rw [hl] at this
      simp at this
    obtain ⟨c, hc, hcu, hmax, hid, hv, hi⟩ := hfull hl
    exact ⟨c, hc, hcu, hmax, hid, hv,
      fun hvalid => hv ⟨_, dateParse_valid c.doneDate hvalid⟩, hi⟩

/-- A day beyond the end of the month rolls over: the text 2024-02-30 is parsed
as 2024-03-01, so a review number 1 of that text is due on 2024-03-02. -/
theorem computeUnitStatus_rollover :
    computeUnitStatus (fixedZone 0) rolloverDb ⟨1, 1, "1-1", "", "t0"⟩
      = .ok ⟨1, "2024-02-30", "2024-03-02"⟩ := by
  decide

/-- Counterexample to C12 as stated: the unit has a review, stored by
insertReview(db, 1, 1, "2024-13-01"), and computeUnitStatus returns no lastNo
and no lastDate: the text is no date and toISOString throws a RangeError. -/
theorem computeUnitStatus_bad_date :
    (insertReview { Db.empty with units := ⟨[⟨1, 1, "1-1", "", "t0"⟩], 2⟩ } 1 1
        ⟨2024, 13, 1⟩ "t1") = (.ok (), badDateDb) ∧
    (∃ r ∈ badDateDb.reviews.records, r.unitId = 1) ∧
    computeUnitStatus (fixedZone 0) badDateDb ⟨1, 1, "1-1", "", "t0"⟩ = .error .rangeError ∧
    computeUnitStatus newYork2024 badDateDb ⟨1, 1, "1-1", "", "t0"⟩ = .error .rangeError := by
  refine ⟨by decide, by decide, by decide, by decide⟩

/-- Witness for C12: a unit without reviews and a unit with two reviews. -/
theorem computeUnitStatus_last_witness :
    (∀ r ∈ sampleDb.reviews.records, r.unitId ≠ 9) ∧
    computeUnitStatus (fixedZone 0) sampleDb ⟨9, 1, "9-9", "", "t0"⟩ = .ok ⟨0, "", ""⟩ ∧
    (∃ r ∈ sampleDb.reviews.records, r.unitId = 1) ∧
    computeUnitStatus (fixedZone 0) sampleDb ⟨1, 1, "1-1", "", "t0"⟩ ≠ .error .rangeError :=
  ⟨by decide,
    (computeUnitStatus_last (fixedZone 0) sampleDb ⟨9, 1, "9-9", "", "t0"⟩).1 (by decide),
    by decide,
    Exists.elim
      ((computeUnitStatus_last (fixedZone 0) sampleDb ⟨1, 1, "1-1", "", "t0"⟩).2.2 (by decide))
      (fun c hc => Exists.elim (hc.2.2.2.2.2.1
          ((by decide : ∀ r ∈ sampleDb.reviews.records, r.doneDate.Valid) c hc.1))
        (fun st hst => by rw [hst.1]; intro h; cases h))⟩

end StudyPwa
